import Mathlib

/-!
Verification development for the tpntree library: an N-dimensional spatial
partitioning tree (generalized quadtree/octree) dividing hyperrectangular
regions into 2^N children.

Real-number coordinates (`f64` in the source) are modelled as rationals `ℚ`;
every arithmetic operation used by the library (addition, subtraction,
halving, comparison) is exact on the dyadic values the algorithms produce,
so `ℚ` is a faithful carrier.  Fixed-size arrays `[f64; N]` and vectors
`Vec<f64>` are both modelled as `List ℚ`; the fixed-dimension variant's
type-level guarantee `coordinates.len() = span.len() = N` becomes an
explicit hypothesis where a theorem needs it.

In-place mutation through `&mut self` is modelled by state passing: an
operation returns the updated tree together with its status.  The possibly
caller-divergent insertion recursion (the division condition may request
division forever) is modelled with an explicit fuel parameter; running out
of fuel is reported by a status distinct from every library error.
-/

namespace Tpn

/-- Error type of the library, from `src/errors.rs`. -/
inductive TpnTreeError where
  | DoesNotSpan
  | CanNotDivide
  | DimensionMismatch
deriving DecidableEq, Repr

/-- The region node of the fixed-dimension variant, from
`src/tpntree/mod.rs`: center coordinates, per-axis spans, height in the
tree, the (0 or 2^N) children, and an optional payload. -/
inductive TpnTree (T : Type) : Type where
  | mk (coordinates : List ℚ) (span : List ℚ) (level : Nat)
       (children : List (TpnTree T)) (data : Option T) : TpnTree T

namespace TpnTree

/-- Field accessor for `coordinates`. -/
def coordinates : TpnTree T → List ℚ
  | mk c _ _ _ _ => c

/-- Field accessor for `span`. -/
def span : TpnTree T → List ℚ
  | mk _ s _ _ _ => s

/-- Field accessor for `level`. -/
def level : TpnTree T → Nat
  | mk _ _ l _ _ => l

/-- Field accessor for `children`. -/
def children : TpnTree T → List (TpnTree T)
  | mk _ _ _ ch _ => ch

/-- Field accessor for `data`. -/
def data : TpnTree T → Option T
  | mk _ _ _ _ d => d

/-- Assignment `self.children = v` of the mutable field. -/
def setChildren : TpnTree T → List (TpnTree T) → TpnTree T
  | mk c s l _ d, ch => mk c s l ch d

/-- Assignment `self.data = v` of the mutable field. -/
def setData : TpnTree T → Option T → TpnTree T
  | mk c s l ch _, d => mk c s l ch d

/-- Constructor `TpnTree::new(coordinates, span, level)`: a leaf with no
data. -/
def new (c s : List ℚ) (l : Nat) : TpnTree T := mk c s l [] none

/-- Constructor `TpnTree::root(span)` for dimension `n`: zero center,
uniform span, level 0. -/
def root (n : Nat) (s : ℚ) : TpnTree T :=
  new (List.replicate n 0) (List.replicate n s) 0

/-- Predicate `is_root`: `self.level == 0`. -/
def isRoot (t : TpnTree T) : Bool := t.level == 0

/-- Predicate `is_leaf`: `self.children.is_empty()`. -/
def isLeaf (t : TpnTree T) : Bool := t.children.isEmpty

instance : Inhabited (TpnTree T) := ⟨mk [] [] 0 [] none⟩

/-- Ripple-carry increment on a little-endian bit pattern, modelling the
carry loop of `divide` (`pattern ^= one; carry = pattern & one;
one = carry << 1` on a `bitvec` of fixed width, with the final carry
dropped off the top: increment modulo 2^width). -/
def bvIncr : List Bool → List Bool
  | [] => []
  | false :: rest => true :: rest
  | true :: rest => false :: bvIncr rest

/-- The bit pattern held by `divide`'s loop at iteration `k`: starting
from all zeroes and incremented once per iteration. -/
def patternAt (n : Nat) : Nat → List Bool
  | 0 => List.replicate n false
  | k + 1 => bvIncr (patternAt n k)

/-- Child center computed by `divide` for a sign pattern:
`coordinates[i] + span[i]/2 - span[i] * (pattern[i] as f64)`. -/
def childCoords (c s : List ℚ) (bs : List Bool) : List ℚ :=
  (List.range c.length).map fun i =>
    c.getD i 0 + s.getD i 0 / 2 - s.getD i 0 * (if bs.getD i false then 1 else 0)

/-- Child span computed by `divide`: `span[i] = self.span[i] / 2.0` for
each axis (the source arrays have equal length by construction). -/
def childSpan (c s : List ℚ) : List ℚ :=
  (List.range c.length).map fun i => s.getD i 0 / 2

/-- The children produced by `divide`: one per counter value
`k ∈ 0..2^N`, built from the loop's bit pattern at iteration `k`. -/
def divideChildren (c s : List ℚ) (l : Nat) : List (TpnTree T) :=
  (List.range (2 ^ c.length)).map fun k =>
    mk (childCoords c s (patternAt c.length k)) (childSpan c s) (l + 1) [] none

/-- Operation `TpnTree::divide` from `src/tpntree/mod.rs`: on a leaf,
fill `children` with the 2^N subregions and succeed; on an internal node
fail with `CanNotDivide` leaving the node untouched. -/
def divide (t : TpnTree T) : TpnTree T × Option TpnTreeError :=
  if t.children.isEmpty then
    (t.setChildren (divideChildren t.coordinates t.span t.level), none)
  else
    (t, some TpnTreeError.CanNotDivide)

/-- Little-endian `n`-bit representation of a natural number, the
mathematical description of the counter patterns. -/
def toBits : Nat → Nat → List Bool
  | 0, _ => []
  | n + 1, k => (k % 2 == 1) :: toBits n (k / 2)

/-- Value of a little-endian bit pattern. -/
def fromBits : List Bool → Nat
  | [] => 0
  | b :: bs => (if b then 1 else 0) + 2 * fromBits bs

/-- Containment test `SpatialTree::spans` from `src/tpntree/spatial.rs`:
for every axis `d` of the node,
`data[d] <= coordinates[d] + span[d] && data[d] >= coordinates[d] - span[d]`.
The payload's coordinates are produced by the `Coordinates` capability,
modelled as an explicit function `cf`; list indexing is total via `getD`
(the trait contract fixes the lengths to `N`). -/
def spans (cf : T → List ℚ) (t : TpnTree (List T)) (p : T) : Bool :=
  let dc := cf p
  (List.range t.coordinates.length).all fun d =>
    decide (dc.getD d 0 ≤ t.coordinates.getD d 0 + t.span.getD d 0) &&
    decide (dc.getD d 0 ≥ t.coordinates.getD d 0 - t.span.getD d 0)

mutual

/-- Operation `SpatialTree::find_by_coordinates`: fail with `DoesNotSpan`
on a root not spanning the target, otherwise descend into the first child
spanning the target, or return the node itself when none does. -/
def findByCoordinates (cf : T → List ℚ) : TpnTree (List T) → T →
    Except TpnTreeError (TpnTree (List T))
  | mk c s l ch d, p =>
    if (mk c s l ch d : TpnTree (List T)).isRoot
        && !(spans cf (mk c s l ch d) p) then
      Except.error TpnTreeError.DoesNotSpan
    else
      match findLoop cf ch p with
      | some r => r
      | none => Except.ok (mk c s l ch d)

/-- The `for child in &self.children` loop of `find_by_coordinates`:
recurse into the first child spanning the target, if any. -/
def findLoop (cf : T → List ℚ) : List (TpnTree (List T)) → T →
    Option (Except TpnTreeError (TpnTree (List T)))
  | [], _ => none
  | c :: cs, p =>
    if spans cf c p then some (findByCoordinates cf c p) else findLoop cf cs p

end

/-- Status of an insertion, separating the library's `Result` from the
two embedding artifacts: a Rust panic (the `unwrap` in
`insert_into_children`) and fuel exhaustion. -/
inductive InsStatus where
  | ok
  | err (e : TpnTreeError)
  | panicked
  | fuelOut
deriving DecidableEq, Repr

/-- The first-spanning-child dispatch of `SpatialTree::insert_into_children`:
`self.children.iter_mut().find(|child| child.spans(&data))` followed by the
recursive insertion (passed in as `ins`) into that child in place; the
`unwrap` on a missing child is the `panicked` status. -/
def insertIntoChildrenAux (cf : T → List ℚ)
    (ins : TpnTree (List T) → T → TpnTree (List T) × InsStatus)
    (t : TpnTree (List T)) (p : T) : TpnTree (List T) × InsStatus :=
  match t.children.findIdx? (fun c => spans cf c p) with
  | none => (t, InsStatus.panicked)
  | some i =>
    match t.children[i]? with
    | none => (t, InsStatus.panicked)
    | some c =>
      let r := ins c p
      (t.setChildren (t.children.set i r.1), r.2)

/-- The `for data in ... chain(once(data))` loop of
`insert_by_coordinates`'s division branch: insert each drained item, and
finally the new one, into the children, stopping at the first failure. -/
def insertListAux (cf : T → List ℚ)
    (ins : TpnTree (List T) → T → TpnTree (List T) × InsStatus)
    (t : TpnTree (List T)) : List T → TpnTree (List T) × InsStatus
  | [] => (t, InsStatus.ok)
  | d :: rest =>
    let r := insertIntoChildrenAux cf ins t d
    match r.2 with
    | InsStatus.ok => insertListAux cf ins r.1 rest
    | st => (r.1, st)

/-- Operation `SpatialTree::insert_by_coordinates` from
`src/tpntree/spatial.rs`, with explicit fuel bounding the recursion depth
(the division condition alone controls termination in the source).  On a
root that does not span the data: `DoesNotSpan`.  On a leaf whose division
condition holds: divide, drain the payload bag (`data.take()`), and insert
each drained item plus the new one into the children.  On a leaf
otherwise: push the data onto the payload bag.  On an internal node:
insert into the first spanning child. -/
def insertGo (cf : T → List ℚ) (cond : TpnTree (List T) → Bool) :
    Nat → TpnTree (List T) → T → TpnTree (List T) × InsStatus
  | 0 => fun t _ => (t, InsStatus.fuelOut)
  | fuel + 1 => fun t p =>
    if t.isRoot && !(spans cf t p) then
      (t, InsStatus.err TpnTreeError.DoesNotSpan)
    else if t.isLeaf then
      if cond t then
        match t.divide with
        | (t₁, some e) => (t₁, InsStatus.err e)
        | (t₁, none) =>
          let drained := t₁.data.getD []
          let t₂ := t₁.setData none
          insertListAux cf (insertGo cf cond fuel) t₂ (drained ++ [p])
      else
        (t.setData (some (t.data.getD [] ++ [p])), InsStatus.ok)
    else
      insertIntoChildrenAux cf (insertGo cf cond fuel) t p

/-- Entry point matching the source's call shape
`tree.insert_by_coordinates(data, &division_condition)`. -/
def insertByCoordinates (cf : T → List ℚ) (fuel : Nat)
    (t : TpnTree (List T)) (p : T) (cond : TpnTree (List T) → Bool) :
    TpnTree (List T) × InsStatus :=
  insertGo cf cond fuel t p

/-- Helper `SpatialTree::insert_into_children` at a given fuel. -/
def insertIntoChildren (cf : T → List ℚ) (fuel : Nat)
    (t : TpnTree (List T)) (p : T) (cond : TpnTree (List T) → Bool) :
    TpnTree (List T) × InsStatus :=
  insertIntoChildrenAux cf (insertGo cf cond fuel) t p

end TpnTree

/-- Depth-first traversal from `src/tpntree/iterators.rs`: pop a node off
the stack, push its children in enumeration order (so the
most-recently-enumerated child is on top), yield the popped node.  The
stack is a `Vec` pushed and popped at the back; it is modelled with the
head of the list as the top.  `fuel` bounds the number of iterator steps;
any fuel at least the node count yields the complete traversal. -/
def dfsAux : Nat → List (TpnTree T) → List (TpnTree T)
  | 0, _ => []
  | _ + 1, [] => []
  | fuel + 1, t :: rest => t :: dfsAux fuel (t.children.reverse ++ rest)

/-- Depth-first iterator seeded with the root. -/
def iterDepthFirst (fuel : Nat) (t : TpnTree T) : List (TpnTree T) :=
  dfsAux fuel [t]

/-- Breadth-first traversal from `src/tpntree/iterators.rs`: pop a node
off the front of the queue, enqueue its children in enumeration order at
the back, yield the popped node. -/
def bfsAux : Nat → List (TpnTree T) → List (TpnTree T)
  | 0, _ => []
  | _ + 1, [] => []
  | fuel + 1, t :: rest => t :: bfsAux fuel (rest ++ t.children)

/-- Breadth-first iterator seeded with the root. -/
def iterBreadthFirst (fuel : Nat) (t : TpnTree T) : List (TpnTree T) :=
  bfsAux fuel [t]

namespace Dynamic

/-- The region node of the runtime-dimension variant, from
`src/tpntree_dynamic/mod.rs`: same fields, with `Vec<f64>` coordinates
and span whose lengths agree by the constructor's assertion. -/
inductive DynTree (T : Type) : Type where
  | mk (coordinates : List ℚ) (span : List ℚ) (level : Nat)
       (children : List (DynTree T)) (data : Option T) : DynTree T

namespace DynTree

/-- Field accessor for `coordinates`. -/
def coordinates : DynTree T → List ℚ
  | mk c _ _ _ _ => c

/-- Field accessor for `span`. -/
def span : DynTree T → List ℚ
  | mk _ s _ _ _ => s

/-- Field accessor for `level`. -/
def level : DynTree T → Nat
  | mk _ _ l _ _ => l

/-- Field accessor for `children`. -/
def children : DynTree T → List (DynTree T)
  | mk _ _ _ ch _ => ch

/-- Field accessor for `data`. -/
def data : DynTree T → Option T
  | mk _ _ _ _ d => d

/-- Assignment `self.children = v` of the mutable field. -/
def setChildren : DynTree T → List (DynTree T) → DynTree T
  | mk c s l _ d, ch => mk c s l ch d

/-- Constructor `TpnTree::new(coordinates, span, level)` of the dynamic
variant: `assert!(coordinates.len() == span.len())`, then build a leaf.
The assertion failure is modelled as `none`. -/
def new (c s : List ℚ) (l : Nat) : Option (DynTree T) :=
  if c.length = s.length then some (mk c s l [] none) else none

/-- Constructor `TpnTree::root(span, dimensions)` of the dynamic
variant. -/
def root (s : ℚ) (dims : Nat) : Option (DynTree T) :=
  new (List.replicate dims 0) (List.replicate dims s) 0

/-- The children produced by the dynamic variant's `divide`, computed by
the identical counter-based loop as the fixed-dimension variant. -/
def divideChildren (c s : List ℚ) (l : Nat) : List (DynTree T) :=
  (List.range (2 ^ c.length)).map fun k =>
    mk (Tpn.TpnTree.childCoords c s (Tpn.TpnTree.patternAt c.length k))
       (Tpn.TpnTree.childSpan c s) (l + 1) [] none

/-- Operation `TpnTree::divide` from `src/tpntree_dynamic/mod.rs`:
identical subdivision algorithm, reporting success as a boolean
(`true` if division happened, `false` when already divided). -/
def divide (t : DynTree T) : DynTree T × Bool :=
  if t.children.isEmpty then
    (t.setChildren (divideChildren t.coordinates t.span t.level), true)
  else
    (t, false)

end DynTree

end Dynamic

namespace TpnTree

/-- Payload bag of a spatial node: the `Vec<T>` payload, empty when the
optional payload is absent. -/
def bagOf (t : TpnTree (List T)) : List T := t.data.getD []

mutual

/-- All payload items stored anywhere in a subtree. -/
def totalBag : TpnTree (List T) → List T
  | mk _ _ _ ch d => d.getD [] ++ totalBagList ch

/-- All payload items stored anywhere in a forest, in order. -/
def totalBagList : List (TpnTree (List T)) → List T
  | [] => []
  | t :: ts => totalBag t ++ totalBagList ts

end

/-- Children geometry produced by the subdivision engine: the node's
children carry exactly the centers and spans `divide` computes. -/
def childrenGeomOK (t : TpnTree (List T)) : Prop :=
  t.children.map (fun c => (c.coordinates, c.span)) =
    (divideChildren t.coordinates t.span t.level (T := List T)).map
      (fun c => (c.coordinates, c.span))

/-- Well-formed spatial trees, the shape maintained by root construction,
`divide` and coordinate-driven insertion: span and coordinate lengths
agree, children are absent or exactly the subdivision's, every bag item
is spanned by its node, and the same holds recursively. -/
inductive WellFormed (cf : T → List ℚ) : TpnTree (List T) → Prop where
  | intro (t : TpnTree (List T))
      (hlen : t.span.length = t.coordinates.length)
      (hgeom : t.children = [] ∨ childrenGeomOK t)
      (hbag : ∀ x ∈ bagOf t, spans cf t x = true)
      (hch : ∀ c ∈ t.children, WellFormed cf c) : WellFormed cf t

/-- In-place modification of the child at an index, modelling the
`get_mut`/`last_mut` accesses of the iterator tests. -/
def modifyChild (t : TpnTree T) (i : Nat) (f : TpnTree T → TpnTree T) : TpnTree T :=
  t.setChildren (t.children.set i (f (t.children.getD i default)))

end TpnTree

/-- The traversal regression fixture of `src/tpntree/iterators.rs`: data
`1.0` at a 2-dimensional root of span 1.0; divide; data `2.0` on the
last-enumerated child; divide it; data `3.0` on its last-enumerated
child. -/
def fixtureTree : TpnTree ℚ :=
  let t0 := (TpnTree.root 2 1 : TpnTree ℚ).setData (some 1)
  let t1 := t0.divide.1
  t1.modifyChild 3 fun c =>
    let c1 := (c.setData (some 2)).divide.1
    c1.modifyChild 3 fun g => g.setData (some 3)

end Tpn

namespace Tpn

namespace TpnTree

@[simp] theorem coordinates_mk : (mk c s l ch d : TpnTree T).coordinates = c := rfl
@[simp] theorem span_mk : (mk c s l ch d : TpnTree T).span = s := rfl
@[simp] theorem level_mk : (mk c s l ch d : TpnTree T).level = l := rfl
@[simp] theorem children_mk : (mk c s l ch d : TpnTree T).children = ch := rfl
@[simp] theorem data_mk : (mk c s l ch d : TpnTree T).data = d := rfl

@[simp] theorem coordinates_setChildren (t : TpnTree T) (ch) :
    (t.setChildren ch).coordinates = t.coordinates := by cases t; rfl

@[simp] theorem span_setChildren (t : TpnTree T) (ch) :
    (t.setChildren ch).span = t.span := by cases t; rfl

@[simp] theorem level_setChildren (t : TpnTree T) (ch) :
    (t.setChildren ch).level = t.level := by cases t; rfl

@[simp] theorem children_setChildren (t : TpnTree T) (ch) :
    (t.setChildren ch).children = ch := by cases t; rfl

@[simp] theorem data_setChildren (t : TpnTree T) (ch) :
    (t.setChildren ch).data = t.data := by cases t; rfl

@[simp] theorem coordinates_setData (t : TpnTree T) (d) :
    (t.setData d).coordinates = t.coordinates := by cases t; rfl

@[simp] theorem span_setData (t : TpnTree T) (d) :
    (t.setData d).span = t.span := by cases t; rfl

@[simp] theorem level_setData (t : TpnTree T) (d) :
    (t.setData d).level = t.level := by cases t; rfl

@[simp] theorem children_setData (t : TpnTree T) (d) :
    (t.setData d).children = t.children := by cases t; rfl

@[simp] theorem data_setData (t : TpnTree T) (d) :
    (t.setData d).data = d := by cases t; rfl

@[simp] theorem toBits_length : (toBits n k).length = n := by
  induction n generalizing k with
  | zero => rfl
  | succ n ih => simp [toBits, ih]

@[simp] theorem bvIncr_length (bs : List Bool) : (bvIncr bs).length = bs.length := by
  induction bs with
  | nil => rfl
  | cons b rest ih => cases b <;> simp [bvIncr, ih]

@[simp] theorem patternAt_length : (patternAt n k).length = n := by
  induction k with
  | zero => simp [patternAt]
  | succ k ih => simp [patternAt, ih]

theorem toBits_zero (n : Nat) : toBits n 0 = List.replicate n false := by
  induction n with
  | zero => rfl
  | succ n ih => simp [toBits, List.replicate, ih]

theorem bvIncr_toBits (n k : Nat) : bvIncr (toBits n k) = toBits n (k + 1) := by
  induction n generalizing k with
  | zero => rfl
  | succ n ih =>
    rcases Nat.even_or_odd k with he | ho
    · obtain ⟨m, hm⟩ := he
      have h2 : k % 2 = 0 := by omega
      have h3 : (k + 1) % 2 = 1 := by omega
      have h4 : (k + 1) / 2 = k / 2 := by omega
      simp [toBits, h2, h3, h4, bvIncr]
    · obtain ⟨m, hm⟩ := ho
      have h2 : k % 2 = 1 := by omega
      have h3 : (k + 1) % 2 = 0 := by omega
      have h4 : (k + 1) / 2 = k / 2 + 1 := by omega
      simp [toBits, h2, h3, h4, bvIncr, ih]

/-- The pattern at loop iteration `k` is the `n`-bit counter value `k`. -/
theorem patternAt_eq_toBits (n k : Nat) : patternAt n k = toBits n k := by
  induction k with
  | zero => simp [patternAt, toBits_zero]
  | succ k ih => simp [patternAt, ih, bvIncr_toBits]

theorem fromBits_toBits (n k : Nat) : fromBits (toBits n k) = k % 2 ^ n := by
  induction n generalizing k with
  | zero => simp [toBits, fromBits, Nat.mod_one]
  | succ n ih =>
    have hdiv : k % (2 * 2 ^ n) / 2 = k / 2 % 2 ^ n := Nat.mod_mul_right_div_self k 2 (2 ^ n)
    have hmod : k % (2 * 2 ^ n) % 2 = k % 2 := Nat.mod_mul_right_mod k 2 (2 ^ n)
    have hdecomp : k % (2 * 2 ^ n) % 2 + 2 * (k % (2 * 2 ^ n) / 2) = k % (2 * 2 ^ n) :=
      Nat.mod_add_div _ 2
    have hpow : (2 : Nat) ^ (n + 1) = 2 * 2 ^ n := by ring
    rcases Nat.mod_two_eq_zero_or_one k with h | h <;>
      · simp [toBits, h, fromBits, ih, hpow]
        omega

theorem toBits_inj {n j k : Nat} (hj : j < 2 ^ n) (hk : k < 2 ^ n)
    (h : toBits n j = toBits n k) : j = k := by
  have h1 := fromBits_toBits n j
  have h2 := fromBits_toBits n k
  rw [h] at h1
  rw [Nat.mod_eq_of_lt hj] at h1
  rw [Nat.mod_eq_of_lt hk] at h2
  omega

theorem fromBits_lt (bs : List Bool) : fromBits bs < 2 ^ bs.length := by
  induction bs with
  | nil => simp [fromBits]
  | cons b rest ih =>
    cases b <;> simp [fromBits, Nat.pow_succ] <;> omega

theorem toBits_fromBits (bs : List Bool) : toBits bs.length (fromBits bs) = bs := by
  induction bs with
  | nil => rfl
  | cons b rest ih =>
    cases b
    · have hv : fromBits (false :: rest) = 2 * fromBits rest := by simp [fromBits]
      have h1 : 2 * fromBits rest % 2 = 0 := by omega
      have h2 : 2 * fromBits rest / 2 = fromBits rest := by omega
      simp [toBits, hv, h1, h2, ih]
    · have hv : fromBits (true :: rest) = 1 + 2 * fromBits rest := by simp [fromBits]
      have h1 : (1 + 2 * fromBits rest) % 2 = 1 := by omega
      have h2 : (1 + 2 * fromBits rest) / 2 = fromBits rest := by omega
      simp [toBits, hv, h1, h2, ih]

theorem toBits_getD_testBit (n k i : Nat) (hi : i < n) :
    (toBits n k).getD i false = k.testBit i := by
  induction n generalizing k i with
  | zero => omega
  | succ n ih =>
    cases i with
    | zero =>
      rcases Nat.mod_two_eq_zero_or_one k with h | h <;>
        simp [toBits, h, Nat.testBit_zero]
    | succ i =>
      have hs : Nat.testBit k (i + 1) = Nat.testBit (k / 2) i := by
        simp [Nat.testBit_succ]
      simp only [toBits, List.getD_cons_succ, hs]
      exact ih (k / 2) i (by omega)

theorem getD_map_range (f : Nat → α) (d : α) (hi : i < n) :
    ((List.range n).map f).getD i d = f i := by
  simp [List.getD_eq_getElem?_getD, List.getElem?_range hi]

@[simp] theorem childCoords_length : (childCoords c s bs).length = c.length := by
  simp [childCoords]

@[simp] theorem childSpan_length : (childSpan c s).length = c.length := by
  simp [childSpan]

theorem childCoords_getD (hi : i < c.length) :
    (childCoords c s bs).getD i 0 =
      c.getD i 0 + s.getD i 0 / 2 - s.getD i 0 * (if bs.getD i false then 1 else 0) :=
  getD_map_range _ _ hi

theorem childSpan_getD (hi : i < c.length) :
    (childSpan c s).getD i 0 = s.getD i 0 / 2 :=
  getD_map_range _ _ hi

@[simp] theorem divideChildren_length :
    (divideChildren (T := T) c s l).length = 2 ^ c.length := by
  simp [divideChildren]

theorem divideChildren_getElem? (hk : k < 2 ^ c.length) :
    (divideChildren (T := T) c s l)[k]? =
      some (mk (childCoords c s (patternAt c.length k)) (childSpan c s) (l + 1) [] none) := by
  simp [divideChildren, List.getElem?_range hk]

theorem divide_of_leaf (t : TpnTree T) (h : t.children = []) :
    t.divide = (t.setChildren (divideChildren t.coordinates t.span t.level), none) := by
  simp [divide, h]

theorem divide_of_internal (t : TpnTree T) (h : t.children ≠ []) :
    t.divide = (t, some TpnTreeError.CanNotDivide) := by
  have hne : t.children.isEmpty = false := by
    simp [List.isEmpty_iff, h]
  simp [divide, hne]

theorem spans_iff (cf : T → List ℚ) (t : TpnTree (List T)) (p : T) :
    spans cf t p = true ↔
      ∀ i, i < t.coordinates.length →
        |(cf p).getD i 0 - t.coordinates.getD i 0| ≤ t.span.getD i 0 := by
  simp only [spans, List.all_eq_true, List.mem_range, Bool.and_eq_true,
    decide_eq_true_eq, ge_iff_le]
  constructor
  · intro h i hi
    have h2 := h i hi
    rw [abs_sub_le_iff]
    constructor <;> linarith [h2.1, h2.2]
  · intro h i hi
    have h2 := h i hi
    rw [abs_sub_le_iff] at h2
    constructor <;> linarith [h2.1, h2.2]

theorem spans_congr (cf : T → List ℚ) (u t : TpnTree (List T)) (p : T)
    (hc : u.coordinates = t.coordinates) (hs : u.span = t.span) :
    spans cf u p = spans cf t p := by
  simp [spans, hc, hs]

/-- Covering: if a node's children have the subdivision geometry and the
node spans a point, then some child spans the point as well (the closed
intervals of the children cover the parent's region). -/
theorem cover_child (cf : T → List ℚ) (t : TpnTree (List T)) (p : T)
    (hgeom : childrenGeomOK t) (hspans : spans cf t p = true) :
    ∃ (k : Nat) (c : TpnTree (List T)), t.children[k]? = some c ∧ spans cf c p = true := by
  classical
  set N := t.coordinates.length with hN
  set pc := cf p with hpc
  set bs := (List.range N).map
    (fun i => decide (pc.getD i 0 < t.coordinates.getD i 0)) with hbsdef
  have hbsl : bs.length = N := by simp [hbsdef]
  set k := fromBits bs with hkdef
  have hklt : k < 2 ^ N := by
    have h1 := fromBits_lt bs
    rwa [hbsl] at h1
  have hlen2 : t.children.length = 2 ^ N := by
    have h1 := congrArg List.length hgeom
    simpa using h1
  have hkc : k < t.children.length := by rw [hlen2]; exact hklt
  obtain ⟨c, hc⟩ : ∃ c, t.children[k]? = some c :=
    ⟨t.children[k], List.getElem?_eq_getElem hkc⟩
  have hfc : (t.children.map (fun c => (c.coordinates, c.span)))[k]? =
      some (c.coordinates, c.span) := by
    rw [List.getElem?_map, hc]
    rfl
  have hdc : ((divideChildren t.coordinates t.span t.level (T := List T)).map
      (fun c => (c.coordinates, c.span)))[k]? =
      some (childCoords t.coordinates t.span (patternAt N k), childSpan t.coordinates t.span) := by
    rw [List.getElem?_map, divideChildren_getElem? hklt]
    rfl
  rw [hgeom, hdc] at hfc
  have hcc : c.coordinates = childCoords t.coordinates t.span (patternAt N k) := by
    have h1 := Option.some.inj hfc
    exact (congrArg Prod.fst h1).symm
  have hcs : c.span = childSpan t.coordinates t.span := by
    have h1 := Option.some.inj hfc
    exact (congrArg Prod.snd h1).symm
  have hpat : ∀ i, i < N → (patternAt N k).getD i false =
      decide (pc.getD i 0 < t.coordinates.getD i 0) := by
    intro i hi
    rw [patternAt_eq_toBits, hkdef]
    have h1 : toBits N (fromBits bs) = bs := by
      conv_lhs => rw [← hbsl]
      exact toBits_fromBits bs
    rw [h1, hbsdef]
    exact getD_map_range _ _ (by simpa [hbsdef] using hi)
  refine ⟨k, c, hc, ?_⟩
  rw [spans_iff]
  intro i hi
  have hiN : i < N := by
    have : c.coordinates.length = N := by rw [hcc]; simp [hN]
    rwa [this] at hi
  have hccd : c.coordinates.getD i 0 =
      t.coordinates.getD i 0 + t.span.getD i 0 / 2 -
        t.span.getD i 0 * (if (patternAt N k).getD i false then 1 else 0) := by
    rw [hcc]
    exact childCoords_getD hiN
  have hcsd : c.span.getD i 0 = t.span.getD i 0 / 2 := by
    rw [hcs]
    exact childSpan_getD hiN
  have hsp := (spans_iff cf t p).mp hspans i hiN
  rw [abs_sub_le_iff] at hsp
  rw [hccd, hcsd, hpat i hiN]
  rw [abs_sub_le_iff]
  by_cases hlt : pc.getD i 0 < t.coordinates.getD i 0
  · rw [if_pos (by simpa using hlt)]
    constructor <;> [skip; skip] <;> nlinarith [hsp.1, hsp.2, hlt]
  · rw [if_neg (by simpa using hlt)]
    push_neg at hlt
    constructor <;> [skip; skip] <;> nlinarith [hsp.1, hsp.2, hlt]

theorem rootCheck_false {cf : T → List ℚ} {t : TpnTree (List T)} {p : T}
    (h : t.isRoot = false ∨ spans cf t p = true) :
    (t.isRoot && !(spans cf t p)) = false := by
  rcases h with h | h <;> simp [h]

theorem insertGo_zero (cf : T → List ℚ) (cond) (t : TpnTree (List T)) (p : T) :
    insertGo cf cond 0 t p = (t, InsStatus.fuelOut) := rfl

theorem insertGo_succ_dns (cf : T → List ℚ) (cond) (fuel) (t : TpnTree (List T)) (p : T)
    (h : t.isRoot = true) (h2 : spans cf t p = false) :
    insertGo cf cond (fuel + 1) t p = (t, InsStatus.err TpnTreeError.DoesNotSpan) := by
  simp [insertGo, h, h2]

theorem insertGo_succ_push (cf : T → List ℚ) (cond) (fuel) (t : TpnTree (List T)) (p : T)
    (h : t.isRoot = false ∨ spans cf t p = true)
    (hleaf : t.children = []) (hcond : cond t = false) :
    insertGo cf cond (fuel + 1) t p =
      (t.setData (some (t.data.getD [] ++ [p])), InsStatus.ok) := by
  simp [insertGo, rootCheck_false h, isLeaf, hleaf, hcond]

theorem insertGo_succ_divide (cf : T → List ℚ) (cond) (fuel) (t : TpnTree (List T)) (p : T)
    (h : t.isRoot = false ∨ spans cf t p = true)
    (hleaf : t.children = []) (hcond : cond t = true) :
    insertGo cf cond (fuel + 1) t p =
      insertListAux cf (insertGo cf cond fuel)
        ((t.setChildren (divideChildren t.coordinates t.span t.level)).setData none)
        (t.data.getD [] ++ [p]) := by
  simp [insertGo, rootCheck_false h, isLeaf, hleaf, hcond, divide_of_leaf t hleaf]

theorem insertGo_succ_internal (cf : T → List ℚ) (cond) (fuel) (t : TpnTree (List T)) (p : T)
    (h : t.isRoot = false ∨ spans cf t p = true) (hint : t.children ≠ []) :
    insertGo cf cond (fuel + 1) t p =
      insertIntoChildrenAux cf (insertGo cf cond fuel) t p := by
  have hne : t.children.isEmpty = false := by simp [List.isEmpty_iff, hint]
  simp [insertGo, rootCheck_false h, isLeaf, hne]

theorem iicAux_none (cf : T → List ℚ) (ins) (t : TpnTree (List T)) (p : T)
    (h : t.children.findIdx? (fun c => spans cf c p) = none) :
    insertIntoChildrenAux cf ins t p = (t, InsStatus.panicked) := by
  unfold insertIntoChildrenAux
  rw [h]

theorem iicAux_some (cf : T → List ℚ) (ins) (t : TpnTree (List T)) (p : T) (i : Nat)
    (h : t.children.findIdx? (fun c => spans cf c p) = some i) :
    ∃ c, t.children[i]? = some c ∧ spans cf c p = true ∧
      (∀ j, j < i → ∀ cj, t.children[j]? = some cj → spans cf cj p = false) ∧
      insertIntoChildrenAux cf ins t p =
        (t.setChildren (t.children.set i (ins c p).1), (ins c p).2) := by
  obtain ⟨hlt, hp, hprev⟩ := List.findIdx?_eq_some_iff_getElem.mp h
  refine ⟨t.children[i], List.getElem?_eq_getElem hlt, hp, ?_, ?_⟩
  · intro j hj cj hcj
    have h1 := hprev j hj
    have h2 := List.getElem?_eq_getElem (l := t.children) (Nat.lt_trans hj hlt)
    rw [hcj] at h2
    rw [Option.some.inj h2]
    simpa using h1
  · unfold insertIntoChildrenAux
    simp only [h, List.getElem?_eq_getElem hlt]

@[simp] theorem iicAux_coordinates (cf : T → List ℚ) (ins) (t : TpnTree (List T)) (p : T) :
    (insertIntoChildrenAux cf ins t p).1.coordinates = t.coordinates := by
  unfold insertIntoChildrenAux
  split <;> [simp; split <;> simp]

@[simp] theorem iicAux_span (cf : T → List ℚ) (ins) (t : TpnTree (List T)) (p : T) :
    (insertIntoChildrenAux cf ins t p).1.span = t.span := by
  unfold insertIntoChildrenAux
  split <;> [simp; split <;> simp]

@[simp] theorem iicAux_level (cf : T → List ℚ) (ins) (t : TpnTree (List T)) (p : T) :
    (insertIntoChildrenAux cf ins t p).1.level = t.level := by
  unfold insertIntoChildrenAux
  split <;> [simp; split <;> simp]

@[simp] theorem iicAux_data (cf : T → List ℚ) (ins) (t : TpnTree (List T)) (p : T) :
    (insertIntoChildrenAux cf ins t p).1.data = t.data := by
  unfold insertIntoChildrenAux
  split <;> [simp; split <;> simp]

@[simp] theorem insertListAux_coordinates (cf : T → List ℚ) (ins) (items : List T) :
    ∀ t, (insertListAux cf ins t items).1.coordinates = t.coordinates := by
  induction items with
  | nil => intro t; rfl
  | cons d rest ih =>
    intro t
    rw [insertListAux]
    cases h : (insertIntoChildrenAux cf ins t d).2 <;> simp [h, ih]

@[simp] theorem insertListAux_span (cf : T → List ℚ) (ins) (items : List T) :
    ∀ t, (insertListAux cf ins t items).1.span = t.span := by
  induction items with
  | nil => intro t; rfl
  | cons d rest ih =>
    intro t
    rw [insertListAux]
    cases h : (insertIntoChildrenAux cf ins t d).2 <;> simp [h, ih]

@[simp] theorem insertListAux_level (cf : T → List ℚ) (ins) (items : List T) :
    ∀ t, (insertListAux cf ins t items).1.level = t.level := by
  induction items with
  | nil => intro t; rfl
  | cons d rest ih =>
    intro t
    rw [insertListAux]
    cases h : (insertIntoChildrenAux cf ins t d).2 <;> simp [h, ih]

@[simp] theorem insertListAux_data (cf : T → List ℚ) (ins) (items : List T) :
    ∀ t, (insertListAux cf ins t items).1.data = t.data := by
  induction items with
  | nil => intro t; rfl
  | cons d rest ih =>
    intro t
    rw [insertListAux]
    cases h : (insertIntoChildrenAux cf ins t d).2 <;> simp [h, ih]

theorem insertGo_geom (cf : T → List ℚ) (cond) (fuel) (t : TpnTree (List T)) (p : T) :
    (insertGo cf cond fuel t p).1.coordinates = t.coordinates ∧
    (insertGo cf cond fuel t p).1.span = t.span ∧
    (insertGo cf cond fuel t p).1.level = t.level := by
  cases fuel with
  | zero => exact ⟨rfl, rfl, rfl⟩
  | succ fuel =>
    by_cases hdns : t.isRoot = true ∧ spans cf t p = false
    · rw [insertGo_succ_dns cf cond fuel t p hdns.1 hdns.2]
      exact ⟨rfl, rfl, rfl⟩
    · have h : t.isRoot = false ∨ spans cf t p = true := by
        cases ht : t.isRoot with
        | false => exact Or.inl rfl
        | true =>
          cases hs : spans cf t p with
          | false => exact absurd ⟨ht, hs⟩ hdns
          | true => exact Or.inr rfl
      by_cases hleaf : t.children = []
      · by_cases hcond : cond t = true
        · rw [insertGo_succ_divide cf cond fuel t p h hleaf hcond]
          simp
        · rw [insertGo_succ_push cf cond fuel t p h hleaf
            (Bool.eq_false_iff.mpr (fun hc => hcond hc))]
          simp
      · rw [insertGo_succ_internal cf cond fuel t p h hleaf]
        simp

theorem not_dns_cases {cf : T → List ℚ} {t : TpnTree (List T)} {p : T}
    (hdns : ¬(t.isRoot = true ∧ spans cf t p = false)) :
    t.isRoot = false ∨ spans cf t p = true := by
  cases ht : t.isRoot with
  | false => exact Or.inl rfl
  | true =>
    cases hs : spans cf t p with
    | false => exact absurd ⟨ht, hs⟩ hdns
    | true => exact Or.inr rfl

theorem find_eq (cf : T → List ℚ) (t : TpnTree (List T)) (p : T) :
    findByCoordinates cf t p =
      if t.isRoot && !(spans cf t p) then Except.error TpnTreeError.DoesNotSpan
      else
        match findLoop cf t.children p with
        | some r => r
        | none => Except.ok t := by
  cases t
  rfl

theorem findLoop_first (cf : T → List ℚ) (p : T) :
    ∀ (ch : List (TpnTree (List T))) (i : Nat) (c : TpnTree (List T)),
      ch[i]? = some c → spans cf c p = true →
      (∀ j, j < i → ∀ cj, ch[j]? = some cj → spans cf cj p = false) →
      findLoop cf ch p = some (findByCoordinates cf c p) := by
  intro ch
  induction ch with
  | nil =>
    intro i c hc _ _
    simp at hc
  | cons hd tl ih =>
    intro i c hc hsp hprev
    cases i with
    | zero =>
      simp only [List.getElem?_cons_zero, Option.some.injEq] at hc
      subst hc
      rw [findLoop, if_pos hsp]
    | succ i =>
      have hhd : spans cf hd p = false := hprev 0 (Nat.succ_pos i) hd (by simp)
      rw [findLoop, if_neg (by simp [hhd])]
      exact ih i c (by simpa using hc) hsp
        (fun j hj cj hcj => hprev (j + 1) (by omega) cj (by simpa using hcj))

/-- Every successful insertion leaves the inserted item findable: the
conjunction handles `insert_by_coordinates`, `insert_into_children` and
the drain loop simultaneously, by induction on fuel. -/
theorem insert_find_master (cf : T → List ℚ) (cond : TpnTree (List T) → Bool) :
    ∀ fuel : Nat,
      (∀ t p t', insertGo cf cond fuel t p = (t', InsStatus.ok) →
        ∃ node, findByCoordinates cf t' p = Except.ok node ∧ p ∈ node.bagOf) ∧
      (∀ t p t', (t.isRoot && !(spans cf t p)) = false →
        insertIntoChildrenAux cf (insertGo cf cond fuel) t p = (t', InsStatus.ok) →
        ∃ node, findByCoordinates cf t' p = Except.ok node ∧ p ∈ node.bagOf) ∧
      (∀ ds t p t', (t.isRoot && !(spans cf t p)) = false →
        insertListAux cf (insertGo cf cond fuel) t (ds ++ [p]) = (t', InsStatus.ok) →
        ∃ node, findByCoordinates cf t' p = Except.ok node ∧ p ∈ node.bagOf) := by
  have hiic : ∀ fuel,
      (∀ t p t', insertGo cf cond fuel t p = (t', InsStatus.ok) →
        ∃ node, findByCoordinates cf t' p = Except.ok node ∧ p ∈ node.bagOf) →
      (∀ t p t', (t.isRoot && !(spans cf t p)) = false →
        insertIntoChildrenAux cf (insertGo cf cond fuel) t p = (t', InsStatus.ok) →
        ∃ node, findByCoordinates cf t' p = Except.ok node ∧ p ∈ node.bagOf) := by
    intro fuel pb t p t' H hin
    cases hf : t.children.findIdx? (fun c => spans cf c p) with
    | none =>
      rw [iicAux_none cf _ t p hf] at hin
      exact absurd (congrArg Prod.snd hin) (by simp)
    | some i =>
      obtain ⟨c, hci, hsp, hprev, heq⟩ := iicAux_some cf (insertGo cf cond fuel) t p i hf
      rw [heq] at hin
      have hst : (insertGo cf cond fuel c p).2 = InsStatus.ok := congrArg Prod.snd hin
      have ht' : t' = t.setChildren (t.children.set i (insertGo cf cond fuel c p).1) :=
        (congrArg Prod.fst hin).symm
      have hok : insertGo cf cond fuel c p =
          ((insertGo cf cond fuel c p).1, InsStatus.ok) := by
        rw [← hst]
      obtain ⟨node, hfind, hmem⟩ := pb c p (insertGo cf cond fuel c p).1 hok
      refine ⟨node, ?_, hmem⟩
      subst ht'
      rw [find_eq]
      have hgeo := insertGo_geom cf cond fuel c p
      have hroot : (t.setChildren
          (t.children.set i (insertGo cf cond fuel c p).1)).isRoot = t.isRoot := by
        simp [isRoot]
      have hspan : spans cf (t.setChildren
          (t.children.set i (insertGo cf cond fuel c p).1)) p = spans cf t p := by
        apply spans_congr <;> simp
      rw [if_neg (by rw [hroot, hspan]; simp [H])]
      have hilt : i < t.children.length := by
        rcases List.getElem?_eq_some_iff.mp hci with ⟨hl, _⟩
        exact hl
      have hself : (t.children.set i (insertGo cf cond fuel c p).1)[i]? =
          some (insertGo cf cond fuel c p).1 := by
        rw [List.getElem?_set_self (by simpa using hilt)]
      have hspc : spans cf (insertGo cf cond fuel c p).1 p = true := by
        rw [spans_congr cf _ c p hgeo.1 hgeo.2.1]
        exact hsp
      have hloop := findLoop_first cf p (t.children.set i (insertGo cf cond fuel c p).1)
        i (insertGo cf cond fuel c p).1 hself hspc
        (fun j hj cj hcj => by
          rw [List.getElem?_set_ne (by omega)] at hcj
          exact hprev j hj cj hcj)
      rw [children_setChildren, hloop, hfind]
  have hlist : ∀ fuel,
      (∀ t p t', (t.isRoot && !(spans cf t p)) = false →
        insertIntoChildrenAux cf (insertGo cf cond fuel) t p = (t', InsStatus.ok) →
        ∃ node, findByCoordinates cf t' p = Except.ok node ∧ p ∈ node.bagOf) →
      (∀ ds t p t', (t.isRoot && !(spans cf t p)) = false →
        insertListAux cf (insertGo cf cond fuel) t (ds ++ [p]) = (t', InsStatus.ok) →
        ∃ node, findByCoordinates cf t' p = Except.ok node ∧ p ∈ node.bagOf) := by
    intro fuel pc ds
    induction ds with
    | nil =>
      intro t p t' H hin
      rw [List.nil_append, insertListAux] at hin
      cases hs : (insertIntoChildrenAux cf (insertGo cf cond fuel) t p).2 with
      | ok =>
        rw [hs, insertListAux] at hin
        have ht' : t' = (insertIntoChildrenAux cf (insertGo cf cond fuel) t p).1 :=
          (congrArg Prod.fst hin).symm
        subst ht'
        exact pc t p _ H (by rw [← hs])
      | err e => rw [hs] at hin; exact absurd (congrArg Prod.snd hin) (by simp)
      | panicked => rw [hs] at hin; exact absurd (congrArg Prod.snd hin) (by simp)
      | fuelOut => rw [hs] at hin; exact absurd (congrArg Prod.snd hin) (by simp)
    | cons d rest ih =>
      intro t p t' H hin
      rw [List.cons_append, insertListAux] at hin
      cases hs : (insertIntoChildrenAux cf (insertGo cf cond fuel) t d).2 with
      | ok =>
        rw [hs] at hin
        have H2 : ((insertIntoChildrenAux cf (insertGo cf cond fuel) t d).1.isRoot &&
            !(spans cf (insertIntoChildrenAux cf (insertGo cf cond fuel) t d).1 p)) = false := by
          have h1 : (insertIntoChildrenAux cf (insertGo cf cond fuel) t d).1.isRoot
              = t.isRoot := by simp [isRoot]
          have h2 : spans cf (insertIntoChildrenAux cf (insertGo cf cond fuel) t d).1 p
              = spans cf t p := by apply spans_congr <;> simp
          rw [h1, h2]
          exact H
        exact ih _ p t' H2 hin
      | err e => rw [hs] at hin; exact absurd (congrArg Prod.snd hin) (by simp)
      | panicked => rw [hs] at hin; exact absurd (congrArg Prod.snd hin) (by simp)
      | fuelOut => rw [hs] at hin; exact absurd (congrArg Prod.snd hin) (by simp)
  intro fuel
  induction fuel with
  | zero =>
    have pb : ∀ (t : TpnTree (List T)) p t', insertGo cf cond 0 t p = (t', InsStatus.ok) →
        ∃ node, findByCoordinates cf t' p = Except.ok node ∧ p ∈ node.bagOf := by
      intro t p t' hin
      rw [insertGo_zero] at hin
      exact absurd (congrArg Prod.snd hin) (by simp)
    exact ⟨pb, hiic 0 pb, hlist 0 (hiic 0 pb)⟩
  | succ fuel ih =>
    obtain ⟨ihb, ihc, ihl⟩ := ih
    have pb : ∀ (t : TpnTree (List T)) p t',
        insertGo cf cond (fuel + 1) t p = (t', InsStatus.ok) →
        ∃ node, findByCoordinates cf t' p = Except.ok node ∧ p ∈ node.bagOf := by
      intro t p t' hin
      by_cases hdns : t.isRoot = true ∧ spans cf t p = false
      · rw [insertGo_succ_dns cf cond fuel t p hdns.1 hdns.2] at hin
        exact absurd (congrArg Prod.snd hin) (by simp)
      · have h := not_dns_cases hdns
        have H : (t.isRoot && !(spans cf t p)) = false := rootCheck_false h
        by_cases hleaf : t.children = []
        · by_cases hcond : cond t = true
          · rw [insertGo_succ_divide cf cond fuel t p h hleaf hcond] at hin
            have H2 : (((t.setChildren (divideChildren t.coordinates t.span t.level)).setData
                none).isRoot && !(spans cf ((t.setChildren
                  (divideChildren t.coordinates t.span t.level)).setData none) p)) = false := by
              have h1 : ((t.setChildren (divideChildren t.coordinates t.span t.level)).setData
                  none).isRoot = t.isRoot := by simp [isRoot]
              have h2 : spans cf ((t.setChildren
                  (divideChildren t.coordinates t.span t.level)).setData none) p
                  = spans cf t p := by apply spans_congr <;> simp
              rw [h1, h2]
              exact H
            exact ihl (t.data.getD []) _ p t' H2 hin
          · rw [insertGo_succ_push cf cond fuel t p h hleaf
              (Bool.eq_false_iff.mpr (fun hcc => hcond hcc))] at hin
            have ht' : t' = t.setData (some (t.data.getD [] ++ [p])) :=
              (congrArg Prod.fst hin).symm
            subst ht'
            refine ⟨t.setData (some (t.data.getD [] ++ [p])), ?_, ?_⟩
            · rw [find_eq]
              have hroot : (t.setData (some (t.data.getD [] ++ [p]))).isRoot = t.isRoot := by
                simp [isRoot]
              have hspan : spans cf (t.setData (some (t.data.getD [] ++ [p]))) p
                  = spans cf t p := by apply spans_congr <;> simp
              rw [if_neg (by rw [hroot, hspan]; simp [H])]
              rw [children_setData, hleaf]
              rfl
            · simp [bagOf]
        · rw [insertGo_succ_internal cf cond fuel t p h hleaf] at hin
          exact ihc t p t' H hin
    exact ⟨pb, hiic (fuel + 1) pb, hlist (fuel + 1) (hiic (fuel + 1) pb)⟩

theorem list_set_same : ∀ (l : List α) (i : Nat) (a : α), l[i]? = some a → l.set i a = l := by
  intro l
  induction l with
  | nil => intro i a h; simp at h
  | cons hd tl ih =>
    intro i a h
    cases i with
    | zero =>
      simp only [List.getElem?_cons_zero, Option.some.injEq] at h
      simp [h]
    | succ i =>
      simp only [List.getElem?_cons_succ] at h
      simp [List.set_cons_succ, ih i a h]

@[simp] theorem totalBag_mk (c s : List ℚ) (l : Nat) (ch) (d : Option (List T)) :
    totalBag (mk c s l ch d) = d.getD [] ++ totalBagList ch := by
  rw [totalBag]

theorem totalBag_eq (t : TpnTree (List T)) :
    totalBag t = t.data.getD [] ++ totalBagList t.children := by
  cases t
  rfl

@[simp] theorem totalBagList_nil : totalBagList ([] : List (TpnTree (List T))) = [] := rfl

@[simp] theorem totalBagList_cons (t : TpnTree (List T)) (ts) :
    totalBagList (t :: ts) = totalBag t ++ totalBagList ts := by
  rw [totalBagList]

theorem totalBag_setChildren (t : TpnTree (List T)) (ch) :
    totalBag (t.setChildren ch) = t.data.getD [] ++ totalBagList ch := by
  cases t
  rfl

theorem totalBag_setData (t : TpnTree (List T)) (d) :
    totalBag (t.setData d) = d.getD [] ++ totalBagList t.children := by
  cases t
  rfl

theorem totalBagList_divideChildren (c s : List ℚ) (l : Nat) :
    totalBagList (divideChildren (T := List T) c s l) = [] := by
  unfold divideChildren
  generalize List.range (2 ^ c.length) = ks
  induction ks with
  | nil => rfl
  | cons k ks ih => simp [ih]

theorem totalBagList_set_perm (p : T) :
    ∀ (ch : List (TpnTree (List T))) (i : Nat) (c c' : TpnTree (List T)),
      ch[i]? = some c → List.Perm (totalBag c') (totalBag c ++ [p]) →
      List.Perm (totalBagList (ch.set i c')) (totalBagList ch ++ [p]) := by
  intro ch
  induction ch with
  | nil => intro i c c' h _; simp at h
  | cons hd tl ih =>
    intro i c c' h hperm
    cases i with
    | zero =>
      simp only [List.getElem?_cons_zero, Option.some.injEq] at h
      subst h
      simp only [List.set_cons_zero, totalBagList_cons]
      refine List.Perm.trans (hperm.append_right (totalBagList tl)) ?_
      simp only [List.append_assoc]
      exact List.Perm.append_left _ List.perm_append_comm
    | succ i =>
      simp only [List.getElem?_cons_succ] at h
      simp only [List.set_cons_succ, totalBagList_cons]
      refine List.Perm.trans (List.Perm.append_left _ (ih i c c' h hperm)) ?_
      simp [List.append_assoc]

/-- Every successful insertion adds exactly the inserted item to the
multiset of items stored in the tree, by induction on fuel. -/
theorem insert_bag_master (cf : T → List ℚ) (cond : TpnTree (List T) → Bool) :
    ∀ fuel : Nat,
      (∀ t p t', insertGo cf cond fuel t p = (t', InsStatus.ok) →
        List.Perm (totalBag t') (totalBag t ++ [p])) ∧
      (∀ t p t', insertIntoChildrenAux cf (insertGo cf cond fuel) t p = (t', InsStatus.ok) →
        List.Perm (totalBag t') (totalBag t ++ [p])) ∧
      (∀ items t t', insertListAux cf (insertGo cf cond fuel) t items = (t', InsStatus.ok) →
        List.Perm (totalBag t') (totalBag t ++ items)) := by
  have hiic : ∀ fuel,
      (∀ t p t', insertGo cf cond fuel t p = (t', InsStatus.ok) →
        List.Perm (totalBag t') (totalBag t ++ [p])) →
      (∀ t p t', insertIntoChildrenAux cf (insertGo cf cond fuel) t p = (t', InsStatus.ok) →
        List.Perm (totalBag t') (totalBag t ++ [p])) := by
    intro fuel pb t p t' hin
    cases hf : t.children.findIdx? (fun c => spans cf c p) with
    | none =>
      rw [iicAux_none cf _ t p hf] at hin
      exact absurd (congrArg Prod.snd hin) (by simp)
    | some i =>
      obtain ⟨c, hci, _, _, heq⟩ := iicAux_some cf (insertGo cf cond fuel) t p i hf
      rw [heq] at hin
      have hst : (insertGo cf cond fuel c p).2 = InsStatus.ok := congrArg Prod.snd hin
      have ht' : t' = t.setChildren (t.children.set i (insertGo cf cond fuel c p).1) :=
        (congrArg Prod.fst hin).symm
      have hcperm : List.Perm (totalBag (insertGo cf cond fuel c p).1) (totalBag c ++ [p]) :=
        pb c p _ (by rw [← hst])
      subst ht'
      rw [totalBag_setChildren, totalBag_eq t, List.append_assoc]
      exact List.Perm.append_left _ (totalBagList_set_perm p t.children i c _ hci hcperm)
  have hlist : ∀ fuel,
      (∀ t p t', insertIntoChildrenAux cf (insertGo cf cond fuel) t p = (t', InsStatus.ok) →
        List.Perm (totalBag t') (totalBag t ++ [p])) →
      (∀ items t t', insertListAux cf (insertGo cf cond fuel) t items = (t', InsStatus.ok) →
        List.Perm (totalBag t') (totalBag t ++ items)) := by
    intro fuel pc items
    induction items with
    | nil =>
      intro t t' hin
      rw [insertListAux] at hin
      have ht' : t' = t := (congrArg Prod.fst hin).symm
      subst ht'
      simp
    | cons d rest ih =>
      intro t t' hin
      rw [insertListAux] at hin
      cases hs : (insertIntoChildrenAux cf (insertGo cf cond fuel) t d).2 with
      | ok =>
        rw [hs] at hin
        have h1 : List.Perm (totalBag (insertIntoChildrenAux cf (insertGo cf cond fuel) t d).1)
            (totalBag t ++ [d]) := pc t d _ (by rw [← hs])
        have h2 := ih _ t' hin
        refine List.Perm.trans h2 (List.Perm.trans (h1.append_right rest) ?_)
        simp
      | err e => rw [hs] at hin; exact absurd (congrArg Prod.snd hin) (by simp)
      | panicked => rw [hs] at hin; exact absurd (congrArg Prod.snd hin) (by simp)
      | fuelOut => rw [hs] at hin; exact absurd (congrArg Prod.snd hin) (by simp)
  intro fuel
  induction fuel with
  | zero =>
    have pb : ∀ (t : TpnTree (List T)) p t', insertGo cf cond 0 t p = (t', InsStatus.ok) →
        List.Perm (totalBag t') (totalBag t ++ [p]) := by
      intro t p t' hin
      rw [insertGo_zero] at hin
      exact absurd (congrArg Prod.snd hin) (by simp)
    exact ⟨pb, hiic 0 pb, hlist 0 (hiic 0 pb)⟩
  | succ fuel ih =>
    obtain ⟨ihb, ihc, ihl⟩ := ih
    have pb : ∀ (t : TpnTree (List T)) p t',
        insertGo cf cond (fuel + 1) t p = (t', InsStatus.ok) →
        List.Perm (totalBag t') (totalBag t ++ [p]) := by
      intro t p t' hin
      by_cases hdns : t.isRoot = true ∧ spans cf t p = false
      · rw [insertGo_succ_dns cf cond fuel t p hdns.1 hdns.2] at hin
        exact absurd (congrArg Prod.snd hin) (by simp)
      · have h := not_dns_cases hdns
        by_cases hleaf : t.children = []
        · by_cases hcond : cond t = true
          · rw [insertGo_succ_divide cf cond fuel t p h hleaf hcond] at hin
            have h2 := ihl _ _ t' hin
            rw [totalBag_setData, children_setChildren, totalBagList_divideChildren] at h2
            rw [totalBag_eq t, hleaf, totalBagList_nil, List.append_nil]
            simpa using h2
          · rw [insertGo_succ_push cf cond fuel t p h hleaf
              (Bool.eq_false_iff.mpr (fun hcc => hcond hcc))] at hin
            have ht' : t' = t.setData (some (t.data.getD [] ++ [p])) :=
              (congrArg Prod.fst hin).symm
            subst ht'
            rw [totalBag_setData, totalBag_eq t, hleaf, totalBagList_nil]
            simp
        · rw [insertGo_succ_internal cf cond fuel t p h hleaf] at hin
          exact ihc t p t' hin
    exact ⟨pb, hiic (fuel + 1) pb, hlist (fuel + 1) (hiic (fuel + 1) pb)⟩

theorem wf_elim {cf : T → List ℚ} {t : TpnTree (List T)} (hwf : WellFormed cf t) :
    t.span.length = t.coordinates.length ∧
    (t.children = [] ∨ childrenGeomOK t) ∧
    (∀ x ∈ t.bagOf, spans cf t x = true) ∧
    (∀ c ∈ t.children, WellFormed cf c) := by
  cases hwf with
  | intro t hlen hgeom hbag hch => exact ⟨hlen, hgeom, hbag, hch⟩

theorem wf_divide {cf : T → List ℚ} {t : TpnTree (List T)} (hwf : WellFormed cf t) :
    WellFormed cf ((t.setChildren
      (divideChildren t.coordinates t.span t.level)).setData none) := by
  obtain ⟨hlen, -, -, -⟩ := wf_elim hwf
  refine WellFormed.intro _ (by simpa using hlen) (Or.inr ?_) (by simp [bagOf]) ?_
  · unfold childrenGeomOK
    simp
  · intro c hc
    simp only [children_setData, children_setChildren] at hc
    unfold divideChildren at hc
    rw [List.mem_map] at hc
    obtain ⟨k, -, hk⟩ := hc
    subst hk
    exact WellFormed.intro _ (by simp) (Or.inl (by simp)) (by simp [bagOf]) (by simp)

theorem findIdx?_spanning_child {cf : T → List ℚ} {t : TpnTree (List T)} {p : T}
    (hgeom : childrenGeomOK t) (hsp : spans cf t p = true) :
    ∃ i, t.children.findIdx? (fun c => spans cf c p) = some i := by
  obtain ⟨k, c, hkc, hc⟩ := cover_child cf t p hgeom hsp
  have hany : t.children.any (fun c => spans cf c p) = true := by
    rw [List.any_eq_true]
    exact ⟨c, List.getElem?_mem hkc, hc⟩
  have hsome : (t.children.findIdx? (fun c => spans cf c p)).isSome = true := by
    rw [List.findIdx?_isSome]
    exact hany
  exact Option.isSome_iff_exists.mp hsome

@[simp] theorem iicAux_children_length (cf : T → List ℚ) (ins) (t : TpnTree (List T)) (p : T) :
    (insertIntoChildrenAux cf ins t p).1.children.length = t.children.length := by
  unfold insertIntoChildrenAux
  split <;> [simp; split <;> simp]

/-- Insertion at a spanned point never reaches the `unwrap` panic of
`insert_into_children`, and preserves well-formedness, by induction on
fuel. -/
theorem insert_wf_master (cf : T → List ℚ) (cond : TpnTree (List T) → Bool) :
    ∀ fuel : Nat,
      (∀ t p t' st, WellFormed cf t → spans cf t p = true →
        insertGo cf cond fuel t p = (t', st) →
        st ≠ InsStatus.panicked ∧ (st = InsStatus.ok → WellFormed cf t')) ∧
      (∀ t p t' st, WellFormed cf t → spans cf t p = true → t.children ≠ [] →
        insertIntoChildrenAux cf (insertGo cf cond fuel) t p = (t', st) →
        st ≠ InsStatus.panicked ∧ (st = InsStatus.ok → WellFormed cf t')) ∧
      (∀ items t t' st, WellFormed cf t → (∀ x ∈ items, spans cf t x = true) →
        t.children ≠ [] →
        insertListAux cf (insertGo cf cond fuel) t items = (t', st) →
        st ≠ InsStatus.panicked ∧ (st = InsStatus.ok → WellFormed cf t')) := by
  have hiic : ∀ fuel,
      (∀ t p t' st, WellFormed cf t → spans cf t p = true →
        insertGo cf cond fuel t p = (t', st) →
        st ≠ InsStatus.panicked ∧ (st = InsStatus.ok → WellFormed cf t')) →
      (∀ t p t' st, WellFormed cf t → spans cf t p = true → t.children ≠ [] →
        insertIntoChildrenAux cf (insertGo cf cond fuel) t p = (t', st) →
        st ≠ InsStatus.panicked ∧ (st = InsStatus.ok → WellFormed cf t')) := by
    intro fuel pb t p t' st hwf hsp hne hin
    obtain ⟨hlen, hgeom, hbag, hch⟩ := wf_elim hwf
    have hgeom' : childrenGeomOK t := by
      rcases hgeom with h | h
      · exact absurd h hne
      · exact h
    obtain ⟨i, hf⟩ := findIdx?_spanning_child hgeom' hsp
    obtain ⟨c, hci, hspc, hprev, heq⟩ := iicAux_some cf (insertGo cf cond fuel) t p i hf
    rw [heq] at hin
    have hst : st = (insertGo cf cond fuel c p).2 := (congrArg Prod.snd hin).symm
    have ht' : t' = t.setChildren (t.children.set i (insertGo cf cond fuel c p).1) :=
      (congrArg Prod.fst hin).symm
    have hwfc : WellFormed cf c := hch c (List.getElem?_mem hci)
    obtain ⟨hnp, hwfr⟩ := pb c p (insertGo cf cond fuel c p).1 (insertGo cf cond fuel c p).2
      hwfc hspc rfl
    subst hst
    subst ht'
    refine ⟨hnp, fun hok => ?_⟩
    have hgeo := insertGo_geom cf cond fuel c p
    have hwfc' : WellFormed cf (insertGo cf cond fuel c p).1 := hwfr hok
    have hmapset : (t.children.set i (insertGo cf cond fuel c p).1).map
        (fun c => (c.coordinates, c.span)) =
        t.children.map (fun c => (c.coordinates, c.span)) := by
      rw [List.map_set, hgeo.1, hgeo.2.1]
      apply list_set_same
      rw [List.getElem?_map, hci]
      rfl
    refine WellFormed.intro _ (by simpa using hlen) (Or.inr ?_) ?_ ?_
    · unfold childrenGeomOK
      simp only [children_setChildren, coordinates_setChildren, span_setChildren,
        level_setChildren]
      rw [hmapset]
      exact hgeom'
    · intro x hx
      simp only [bagOf, data_setChildren] at hx
      have hsx := hbag x hx
      rw [spans_congr cf (t.setChildren (t.children.set i (insertGo cf cond fuel c p).1))
        t x (by simp) (by simp)]
      exact hsx
    · intro cc hcc
      simp only [children_setChildren] at hcc
      rcases List.mem_or_eq_of_mem_set hcc with h | h
      · exact hch cc h
      · subst h
        exact hwfc'
  have hlist : ∀ fuel,
      (∀ t p t' st, WellFormed cf t → spans cf t p = true → t.children ≠ [] →
        insertIntoChildrenAux cf (insertGo cf cond fuel) t p = (t', st) →
        st ≠ InsStatus.panicked ∧ (st = InsStatus.ok → WellFormed cf t')) →
      (∀ items t t' st, WellFormed cf t → (∀ x ∈ items, spans cf t x = true) →
        t.children ≠ [] →
        insertListAux cf (insertGo cf cond fuel) t items = (t', st) →
        st ≠ InsStatus.panicked ∧ (st = InsStatus.ok → WellFormed cf t')) := by
    intro fuel pc items
    induction items with
    | nil =>
      intro t t' st hwf _ _ hin
      rw [insertListAux] at hin
      have hst : st = InsStatus.ok := (congrArg Prod.snd hin).symm
      have ht' : t' = t := (congrArg Prod.fst hin).symm
      subst hst
      subst ht'
      exact ⟨by simp, fun _ => hwf⟩
    | cons d rest ih =>
      intro t t' st hwf hall hne hin
      rw [insertListAux] at hin
      have hspd : spans cf t d = true := hall d (by simp)
      obtain ⟨hnp_r, hwf_r⟩ := pc t d (insertIntoChildrenAux cf (insertGo cf cond fuel) t d).1
        (insertIntoChildrenAux cf (insertGo cf cond fuel) t d).2 hwf hspd hne rfl
      cases hs : (insertIntoChildrenAux cf (insertGo cf cond fuel) t d).2 with
      | ok =>
        rw [hs] at hin
        have hwf1 : WellFormed cf (insertIntoChildrenAux cf (insertGo cf cond fuel) t d).1 :=
          hwf_r hs
        have hall1 : ∀ x ∈ rest,
            spans cf (insertIntoChildrenAux cf (insertGo cf cond fuel) t d).1 x = true := by
          intro x hx
          rw [spans_congr cf (insertIntoChildrenAux cf (insertGo cf cond fuel) t d).1
            t x (by simp) (by simp)]
          exact hall x (by simp [hx])
        have hne1 : (insertIntoChildrenAux cf (insertGo cf cond fuel) t d).1.children ≠ [] := by
          apply List.ne_nil_of_length_pos
          rw [iicAux_children_length]
          rw [List.length_pos]
          exact hne
        exact ih _ t' st hwf1 hall1 hne1 hin
      | err e =>
        rw [hs] at hin
        have hst : st = InsStatus.err e := (congrArg Prod.snd hin).symm
        subst hst
        exact ⟨by simp, by simp⟩
      | panicked => exact absurd hs hnp_r
      | fuelOut =>
        rw [hs] at hin
        have hst : st = InsStatus.fuelOut := (congrArg Prod.snd hin).symm
        subst hst
        exact ⟨by simp, by simp⟩
  intro fuel
  induction fuel with
  | zero =>
    have pb : ∀ (t : TpnTree (List T)) p t' st, WellFormed cf t → spans cf t p = true →
        insertGo cf cond 0 t p = (t', st) →
        st ≠ InsStatus.panicked ∧ (st = InsStatus.ok → WellFormed cf t') := by
      intro t p t' st _ _ hin
      rw [insertGo_zero] at hin
      have hst : st = InsStatus.fuelOut := (congrArg Prod.snd hin).symm
      subst hst
      exact ⟨by simp, by simp⟩
    exact ⟨pb, hiic 0 pb, hlist 0 (hiic 0 pb)⟩
  | succ fuel ih =>
    obtain ⟨ihb, ihc, ihl⟩ := ih
    have pb : ∀ (t : TpnTree (List T)) p t' st, WellFormed cf t → spans cf t p = true →
        insertGo cf cond (fuel + 1) t p = (t', st) →
        st ≠ InsStatus.panicked ∧ (st = InsStatus.ok → WellFormed cf t') := by
      intro t p t' st hwf hsp hin
      have h : t.isRoot = false ∨ spans cf t p = true := Or.inr hsp
      obtain ⟨hlen, hgeom, hbag, hch⟩ := wf_elim hwf
      by_cases hleaf : t.children = []
      · by_cases hcond : cond t = true
        · rw [insertGo_succ_divide cf cond fuel t p h hleaf hcond] at hin
          have hwf2 : WellFormed cf ((t.setChildren
              (divideChildren t.coordinates t.span t.level)).setData none) :=
            wf_divide hwf
          have hall2 : ∀ x ∈ t.data.getD [] ++ [p],
              spans cf ((t.setChildren
                (divideChildren t.coordinates t.span t.level)).setData none) x = true := by
            intro x hx
            rw [spans_congr cf ((t.setChildren
              (divideChildren t.coordinates t.span t.level)).setData none) t x
              (by simp) (by simp)]
            rcases List.mem_append.mp hx with hx | hx
            · exact hbag x hx
            · rw [List.mem_singleton.mp hx]
              exact hsp
          have hne2 : ((t.setChildren
              (divideChildren t.coordinates t.span t.level)).setData none).children ≠ [] := by
            apply List.ne_nil_of_length_pos
            simp [Nat.pos_pow_of_pos]
          exact ihl _ _ t' st hwf2 hall2 hne2 hin
        · rw [insertGo_succ_push cf cond fuel t p h hleaf
            (Bool.eq_false_iff.mpr (fun hcc => hcond hcc))] at hin
          have hst : st = InsStatus.ok := (congrArg Prod.snd hin).symm
          have ht' : t' = t.setData (some (t.data.getD [] ++ [p])) :=
            (congrArg Prod.fst hin).symm
          subst hst
          subst ht'
          refine ⟨by simp, fun _ => ?_⟩
          refine WellFormed.intro _ (by simpa using hlen) (Or.inl (by simp [hleaf])) ?_
            (by simp [hleaf])
          intro x hx
          simp only [bagOf, data_setData, Option.getD_some] at hx
          rw [spans_congr cf (t.setData (some (t.data.getD [] ++ [p]))) t x
            (by simp) (by simp)]
          rcases List.mem_append.mp hx with hx | hx
          · exact hbag x hx
          · rw [List.mem_singleton.mp hx]
            exact hsp
      · rw [insertGo_succ_internal cf cond fuel t p h hleaf] at hin
        exact ihc t p t' st hwf hsp hleaf hin
    exact ⟨pb, hiic (fuel + 1) pb, hlist (fuel + 1) (hiic (fuel + 1) pb)⟩

/-- Insertion can only report `DoesNotSpan` from the root check of the node
the call is initiated on: every recursive call targets a child that spans
its item, so the check can never fire below the entry point. -/
theorem insert_no_dns_master (cf : T → List ℚ) (cond : TpnTree (List T) → Bool) :
    ∀ fuel : Nat,
      (∀ t p, (t.isRoot = false ∨ spans cf t p = true) →
        (insertGo cf cond fuel t p).2 ≠ InsStatus.err TpnTreeError.DoesNotSpan) ∧
      (∀ t p, (insertIntoChildrenAux cf (insertGo cf cond fuel) t p).2 ≠
        InsStatus.err TpnTreeError.DoesNotSpan) ∧
      (∀ items t, (insertListAux cf (insertGo cf cond fuel) t items).2 ≠
        InsStatus.err TpnTreeError.DoesNotSpan) := by
  have hiic : ∀ fuel,
      (∀ t p, (t.isRoot = false ∨ spans cf t p = true) →
        (insertGo cf cond fuel t p).2 ≠ InsStatus.err TpnTreeError.DoesNotSpan) →
      (∀ t p, (insertIntoChildrenAux cf (insertGo cf cond fuel) t p).2 ≠
        InsStatus.err TpnTreeError.DoesNotSpan) := by
    intro fuel pb t p
    cases hf : t.children.findIdx? (fun c => spans cf c p) with
    | none =>
      rw [iicAux_none cf _ t p hf]
      simp
    | some i =>
      obtain ⟨c, _, hspc, _, heq⟩ := iicAux_some cf (insertGo cf cond fuel) t p i hf
      rw [heq]
      exact pb c p (Or.inr hspc)
  have hlist : ∀ fuel,
      (∀ t p, (insertIntoChildrenAux cf (insertGo cf cond fuel) t p).2 ≠
        InsStatus.err TpnTreeError.DoesNotSpan) →
      (∀ items t, (insertListAux cf (insertGo cf cond fuel) t items).2 ≠
        InsStatus.err TpnTreeError.DoesNotSpan) := by
    intro fuel pc items
    induction items with
    | nil => intro t; rw [insertListAux]; simp
    | cons d rest ih =>
      intro t
      rw [insertListAux]
      cases hs : (insertIntoChildrenAux cf (insertGo cf cond fuel) t d).2 with
      | ok => exact ih _
      | err e =>
        have := pc t d
        rw [hs] at this
        simpa [hs] using this
      | panicked => simp [hs]
      | fuelOut => simp [hs]
  intro fuel
  induction fuel with
  | zero =>
    have pb : ∀ (t : TpnTree (List T)) p, (t.isRoot = false ∨ spans cf t p = true) →
        (insertGo cf cond 0 t p).2 ≠ InsStatus.err TpnTreeError.DoesNotSpan := by
      intro t p _
      rw [insertGo_zero]
      simp
    exact ⟨pb, hiic 0 pb, hlist 0 (hiic 0 pb)⟩
  | succ fuel ih =>
    obtain ⟨ihb, ihc, ihl⟩ := ih
    have pb : ∀ (t : TpnTree (List T)) p, (t.isRoot = false ∨ spans cf t p = true) →
        (insertGo cf cond (fuel + 1) t p).2 ≠ InsStatus.err TpnTreeError.DoesNotSpan := by
      intro t p h
      by_cases hleaf : t.children = []
      · by_cases hcond : cond t = true
        · rw [insertGo_succ_divide cf cond fuel t p h hleaf hcond]
          exact ihl _ _
        · rw [insertGo_succ_push cf cond fuel t p h hleaf
            (Bool.eq_false_iff.mpr (fun hcc => hcond hcc))]
          simp
      · rw [insertGo_succ_internal cf cond fuel t p h hleaf]
        exact ihc t p
    exact ⟨pb, hiic (fuel + 1) pb, hlist (fuel + 1) (hiic (fuel + 1) pb)⟩

theorem sizeOf_lt_of_mem_children {c t : TpnTree (List T)} (h : c ∈ t.children) :
    sizeOf c < sizeOf t := by
  cases t with
  | mk co s l ch d =>
    simp only [children_mk] at h
    have h1 := List.sizeOf_lt_of_mem h
    simp only [mk.sizeOf_spec]
    omega

theorem findLoop_some (cf : T → List ℚ) (p : T) :
    ∀ (ch : List (TpnTree (List T))) (r : Except TpnTreeError (TpnTree (List T))),
      findLoop cf ch p = some r →
      ∃ c, c ∈ ch ∧ spans cf c p = true ∧ r = findByCoordinates cf c p := by
  intro ch
  induction ch with
  | nil => intro r h; rw [findLoop] at h; simp at h
  | cons hd tl ih =>
    intro r h
    rw [findLoop] at h
    by_cases hs : spans cf hd p = true
    · rw [if_pos hs] at h
      exact ⟨hd, by simp, hs, (Option.some.inj h).symm⟩
    · rw [if_neg (by simpa using hs)] at h
      obtain ⟨c, hc, hcs, hr⟩ := ih r h
      exact ⟨c, by simp [hc], hcs, hr⟩

theorem find_ne_dns_aux (cf : T → List ℚ) :
    ∀ n, ∀ t : TpnTree (List T), sizeOf t < n → ∀ p : T,
      (t.isRoot = false ∨ spans cf t p = true) →
      findByCoordinates cf t p ≠ Except.error TpnTreeError.DoesNotSpan := by
  intro n
  induction n with
  | zero => intro t h; exact absurd h (Nat.not_lt_zero _)
  | succ n ih =>
    intro t hsz p H
    rw [find_eq, if_neg (by simp [rootCheck_false H])]
    cases hl : findLoop cf t.children p with
    | none => simp
    | some r =>
      obtain ⟨c, hmem, hcs, hr⟩ := findLoop_some cf p t.children r hl
      subst hr
      have hlt : sizeOf c < n := by
        have := sizeOf_lt_of_mem_children hmem
        omega
      exact ih c hlt p (Or.inr hcs)

theorem find_ne_dns (cf : T → List ℚ) (t : TpnTree (List T)) (p : T)
    (H : t.isRoot = false ∨ spans cf t p = true) :
    findByCoordinates cf t p ≠ Except.error TpnTreeError.DoesNotSpan :=
  find_ne_dns_aux cf (sizeOf t + 1) t (Nat.lt_succ_self _) p H

end TpnTree

namespace Dynamic

namespace DynTree

@[simp] theorem dyn_coordinates_mk : (mk c s l ch d : DynTree T).coordinates = c := rfl
@[simp] theorem dyn_span_mk : (mk c s l ch d : DynTree T).span = s := rfl
@[simp] theorem dyn_level_mk : (mk c s l ch d : DynTree T).level = l := rfl
@[simp] theorem dyn_children_mk : (mk c s l ch d : DynTree T).children = ch := rfl
@[simp] theorem dyn_data_mk : (mk c s l ch d : DynTree T).data = d := rfl

@[simp] theorem dyn_coordinates_setChildren (t : DynTree T) (ch) :
    (t.setChildren ch).coordinates = t.coordinates := by cases t; rfl

@[simp] theorem dyn_span_setChildren (t : DynTree T) (ch) :
    (t.setChildren ch).span = t.span := by cases t; rfl

@[simp] theorem dyn_level_setChildren (t : DynTree T) (ch) :
    (t.setChildren ch).level = t.level := by cases t; rfl

@[simp] theorem dyn_children_setChildren (t : DynTree T) (ch) :
    (t.setChildren ch).children = ch := by cases t; rfl

end DynTree

end Dynamic

namespace TpnTree

/-- C1: on every leaf node, `divide` succeeds and produces exactly 2^N
children in increasing counter order; the child for counter `k` has
`coordinates[i] = parent.coordinates[i] + parent.span[i]/2 -
parent.span[i] * bit_i(k)`, `span[i] = parent.span[i]/2` and
`level = parent.level + 1`; and across the 2^N children every sign
pattern occurs exactly once (the used patterns are pairwise distinct and
every N-bit pattern is among them). -/
theorem C1_divide_spec (t : TpnTree T) (hleaf : t.children = []) :
    t.divide.2 = none ∧
    t.divide.1.children.length = 2 ^ t.coordinates.length ∧
    (∀ k, k < 2 ^ t.coordinates.length →
      ∃ c, t.divide.1.children[k]? = some c ∧
        c.level = t.level + 1 ∧
        c.coordinates.length = t.coordinates.length ∧
        c.span.length = t.coordinates.length ∧
        ∀ i, i < t.coordinates.length →
          c.coordinates.getD i 0 =
            t.coordinates.getD i 0 + t.span.getD i 0 / 2 -
              t.span.getD i 0 * (if k.testBit i then 1 else 0) ∧
          c.span.getD i 0 = t.span.getD i 0 / 2) ∧
    ((List.range (2 ^ t.coordinates.length)).map (patternAt t.coordinates.length)).Nodup ∧
    (∀ bs : List Bool, bs.length = t.coordinates.length →
      bs ∈ (List.range (2 ^ t.coordinates.length)).map (patternAt t.coordinates.length)) := by
  rw [divide_of_leaf t hleaf]
  refine ⟨rfl, by simp, ?_, ?_, ?_⟩
  · intro k hk
    refine ⟨mk (childCoords t.coordinates t.span (patternAt t.coordinates.length k))
      (childSpan t.coordinates t.span) (t.level + 1) [] none, ?_, rfl, by simp, by simp, ?_⟩
    · rw [children_setChildren]
      exact divideChildren_getElem? hk
    · intro i hi
      constructor
      · rw [coordinates_mk, childCoords_getD hi, patternAt_eq_toBits,
          toBits_getD_testBit _ _ _ hi]
      · rw [span_mk, childSpan_getD hi]
  · have hmap : (List.range (2 ^ t.coordinates.length)).map (patternAt t.coordinates.length)
        = (List.range (2 ^ t.coordinates.length)).map (toBits t.coordinates.length) :=
      List.map_congr_left (fun k _ => patternAt_eq_toBits _ k)
    rw [hmap]
    apply List.Nodup.map_on
    · intro j hj k hk hjk
      exact toBits_inj (List.mem_range.mp hj) (List.mem_range.mp hk) hjk
    · exact List.nodup_range _
  · intro bs hbs
    rw [List.mem_map]
    refine ⟨fromBits bs, List.mem_range.mpr ?_, ?_⟩
    · have := fromBits_lt bs
      rwa [hbs] at this
    · rw [patternAt_eq_toBits, ← hbs]
      exact toBits_fromBits bs

/-- C1 witness at a concrete one-dimensional leaf. -/
theorem C1_divide_spec_witness :
    (mk [0] [2] 0 [] none : TpnTree Unit).children = [] ∧
    ((mk [0] [2] 0 [] none : TpnTree Unit).divide.2 = none ∧
    (mk [0] [2] 0 [] none : TpnTree Unit).divide.1.children.length =
      2 ^ (mk [0] [2] 0 [] none : TpnTree Unit).coordinates.length ∧
    (∀ k, k < 2 ^ (mk [0] [2] 0 [] none : TpnTree Unit).coordinates.length →
      ∃ c, (mk [0] [2] 0 [] none : TpnTree Unit).divide.1.children[k]? = some c ∧
        c.level = (mk [0] [2] 0 [] none : TpnTree Unit).level + 1 ∧
        c.coordinates.length = (mk [0] [2] 0 [] none : TpnTree Unit).coordinates.length ∧
        c.span.length = (mk [0] [2] 0 [] none : TpnTree Unit).coordinates.length ∧
        ∀ i, i < (mk [0] [2] 0 [] none : TpnTree Unit).coordinates.length →
          c.coordinates.getD i 0 =
            (mk [0] [2] 0 [] none : TpnTree Unit).coordinates.getD i 0 +
              (mk [0] [2] 0 [] none : TpnTree Unit).span.getD i 0 / 2 -
              (mk [0] [2] 0 [] none : TpnTree Unit).span.getD i 0 *
                (if k.testBit i then 1 else 0) ∧
          c.span.getD i 0 = (mk [0] [2] 0 [] none : TpnTree Unit).span.getD i 0 / 2) ∧
    ((List.range (2 ^ (mk [0] [2] 0 [] none : TpnTree Unit).coordinates.length)).map
      (patternAt (mk [0] [2] 0 [] none : TpnTree Unit).coordinates.length)).Nodup ∧
    (∀ bs : List Bool,
      bs.length = (mk [0] [2] 0 [] none : TpnTree Unit).coordinates.length →
      bs ∈ (List.range (2 ^ (mk [0] [2] 0 [] none : TpnTree Unit).coordinates.length)).map
        (patternAt (mk [0] [2] 0 [] none : TpnTree Unit).coordinates.length))) :=
  ⟨rfl, C1_divide_spec (mk [0] [2] 0 [] none) rfl⟩

/-- C4: `divide` on a node that already has children fails with
`CanNotDivide` and returns the node unchanged, children included. -/
theorem C4_divide_internal (t : TpnTree T) (h : t.children ≠ []) :
    t.divide = (t, some TpnTreeError.CanNotDivide) ∧
    t.divide.1.children = t.children :=
  ⟨divide_of_internal t h, by rw [divide_of_internal t h]⟩

/-- C4 witness on a concrete internal node. -/
theorem C4_divide_internal_witness :
    (mk [] [] 0 [mk [] [] 1 [] none] none : TpnTree Unit).children ≠ [] ∧
    ((mk [] [] 0 [mk [] [] 1 [] none] none : TpnTree Unit).divide =
      (mk [] [] 0 [mk [] [] 1 [] none] none, some TpnTreeError.CanNotDivide) ∧
    (mk [] [] 0 [mk [] [] 1 [] none] none : TpnTree Unit).divide.1.children =
      (mk [] [] 0 [mk [] [] 1 [] none] none : TpnTree Unit).children) :=
  ⟨by simp, C4_divide_internal (mk [] [] 0 [mk [] [] 1 [] none] none) (by simp)⟩

/-- C5: `spans` returns true exactly when, on every axis, the distance
from the data's coordinate to the node's center is at most the node's
span — the closed-interval containment test. -/
theorem C5_spans_characterization (cf : T → List ℚ) (t : TpnTree (List T)) (p : T) :
    spans cf t p = true ↔
      ∀ i, i < t.coordinates.length →
        |(cf p).getD i 0 - t.coordinates.getD i 0| ≤ t.span.getD i 0 :=
  spans_iff cf t p

/-- C5 witness: a boundary point of a concrete one-dimensional root is
spanned. -/
theorem C5_spans_characterization_witness :
    (spans id (mk [0] [1] 0 [] none : TpnTree (List (List ℚ))) [1] = true ↔
      ∀ i, i < (mk [0] [1] 0 [] none : TpnTree (List (List ℚ))).coordinates.length →
        |(id [(1 : ℚ)]).getD i 0 -
            (mk [0] [1] 0 [] none : TpnTree (List (List ℚ))).coordinates.getD i 0| ≤
          (mk [0] [1] 0 [] none : TpnTree (List (List ℚ))).span.getD i 0) ∧
    spans id (mk [0] [1] 0 [] none : TpnTree (List (List ℚ))) [1] = true :=
  ⟨C5_spans_characterization id (mk [0] [1] 0 [] none) [1],
    (C5_spans_characterization id (mk [0] [1] 0 [] none) [1]).mpr (by
      intro i hi
      simp only [coordinates_mk, span_mk, List.length_cons, List.length_nil] at hi ⊢
      interval_cases i
      · norm_num)⟩

/-- C2: whenever `insert_by_coordinates` succeeds, a subsequent
`find_by_coordinates` at the same coordinates succeeds and returns a node
whose payload bag contains the inserted value. -/
theorem C2_insert_then_find (cf : T → List ℚ) (fuel : Nat) (t t' : TpnTree (List T))
    (p : T) (cond : TpnTree (List T) → Bool)
    (h : insertByCoordinates cf fuel t p cond = (t', InsStatus.ok)) :
    ∃ node, findByCoordinates cf t' p = Except.ok node ∧ p ∈ node.bagOf :=
  (insert_find_master cf cond fuel).1 t p t' h

/-- C2 witness: a plain insertion into a zero-dimensional root leaf. -/
theorem C2_insert_then_find_witness :
    insertByCoordinates (fun _ => []) 1 (mk [] [] 0 [] none) () (fun _ => false) =
      (mk [] [] 0 [] (some [()]), InsStatus.ok) ∧
    ∃ node, findByCoordinates (fun _ => []) (mk [] [] 0 [] (some [()])) () =
      Except.ok node ∧ () ∈ node.bagOf :=
  ⟨rfl, C2_insert_then_find (fun _ => []) 1 (mk [] [] 0 [] none) _ () (fun _ => false) rfl⟩

/-- C3: calling `insert_by_coordinates` on a root that does not span the
data fails with `DoesNotSpan` and returns the tree exactly as it was. -/
theorem C3_insert_does_not_span (cf : T → List ℚ) (fuel : Nat) (t : TpnTree (List T))
    (p : T) (cond : TpnTree (List T) → Bool)
    (hroot : t.isRoot = true) (hnspan : spans cf t p = false) :
    insertByCoordinates cf (fuel + 1) t p cond = (t, InsStatus.err TpnTreeError.DoesNotSpan) :=
  insertGo_succ_dns cf cond fuel t p hroot hnspan

/-- C3 witness: a point outside a concrete one-dimensional root. -/
theorem C3_insert_does_not_span_witness :
    (mk [0] [1] 0 [] none : TpnTree (List (List ℚ))).isRoot = true ∧
    spans id (mk [0] [1] 0 [] none : TpnTree (List (List ℚ))) [2] = false ∧
    insertByCoordinates id 1 (mk [0] [1] 0 [] none) [2] (fun _ => false) =
      (mk [0] [1] 0 [] none, InsStatus.err TpnTreeError.DoesNotSpan) := by
  have hns : spans id (mk [0] [1] 0 [] none : TpnTree (List (List ℚ))) [2] = false := by
    simp only [spans, coordinates_mk, span_mk]
    norm_num
  exact ⟨rfl, hns, C3_insert_does_not_span id 0 (mk [0] [1] 0 [] none) [2]
    (fun _ => false) rfl hns⟩

/-- C6: when a leaf's division condition holds and the insertion
succeeds, the node's own payload is cleared and the multiset of items now
stored below it (all inside its children) is exactly the drained payload
plus the newly inserted item. -/
theorem C6_divide_clears_payload (cf : T → List ℚ) (fuel : Nat)
    (t t' : TpnTree (List T)) (p : T) (cond : TpnTree (List T) → Bool)
    (hleaf : t.children = []) (hcond : cond t = true)
    (h : insertByCoordinates cf (fuel + 1) t p cond = (t', InsStatus.ok)) :
    t'.data = none ∧ List.Perm (totalBagList t'.children) (t.bagOf ++ [p]) := by
  by_cases hdns : t.isRoot = true ∧ spans cf t p = false
  · rw [insertByCoordinates, insertGo_succ_dns cf cond fuel t p hdns.1 hdns.2] at h
    exact absurd (congrArg Prod.snd h) (by simp)
  · have hor := not_dns_cases hdns
    rw [insertByCoordinates, insertGo_succ_divide cf cond fuel t p hor hleaf hcond] at h
    have hdata : t'.data = none := by
      have h1 := insertListAux_data cf (insertGo cf cond fuel) (t.data.getD [] ++ [p])
        ((t.setChildren (divideChildren t.coordinates t.span t.level)).setData none)
      rw [h, data_setData] at h1
      exact h1
    refine ⟨hdata, ?_⟩
    have hperm := (insert_bag_master cf cond fuel).2.2 (t.data.getD [] ++ [p])
      ((t.setChildren (divideChildren t.coordinates t.span t.level)).setData none) t' h
    simp only [totalBag_setData, children_setChildren, totalBagList_divideChildren,
      List.append_nil, Option.getD_none, List.nil_append] at hperm
    have htb : totalBag t' = totalBagList t'.children := by
      rw [totalBag_eq, hdata]
      rfl
    rw [htb] at hperm
    simpa [bagOf] using hperm

/-- C6 witness: a dividing insertion at a zero-dimensional root holding
one item. -/
theorem C6_divide_clears_payload_witness :
    (mk [] [] 0 [] (some [()]) : TpnTree (List Unit)).children = [] ∧
    (fun t : TpnTree (List Unit) => t.level == 0) (mk [] [] 0 [] (some [()])) = true ∧
    insertByCoordinates (fun _ => []) 2 (mk [] [] 0 [] (some [()])) ()
      (fun t => t.level == 0) =
      (mk [] [] 0 [mk [] [] 1 [] (some [(), ()])] none, InsStatus.ok) ∧
    (mk [] [] 0 [mk [] [] 1 [] (some [(), ()])] none : TpnTree (List Unit)).data = none ∧
    List.Perm
      (totalBagList (mk [] [] 0 [mk [] [] 1 [] (some [(), ()])] none :
        TpnTree (List Unit)).children)
      ((mk [] [] 0 [] (some [()]) : TpnTree (List Unit)).bagOf ++ [()]) := by
  refine ⟨rfl, rfl, rfl, ?_⟩
  exact C6_divide_clears_payload (fun _ => []) 1 (mk [] [] 0 [] (some [()])) _ ()
    (fun t => t.level == 0) rfl rfl rfl

/-- C9: a node that divides while spanning a point yields at least one
child spanning that point; consequently insertion initiated at a
well-formed tree that spans the inserted data never reaches the `unwrap`
panic inside `insert_into_children`. -/
theorem C9_cover_no_panic (cf : T → List ℚ) (t : TpnTree (List T)) (p : T)
    (hwf : WellFormed cf t) (hsp : spans cf t p = true) :
    (t.children = [] →
      ∃ (k : Nat) (c : TpnTree (List T)), t.divide.1.children[k]? = some c ∧
        spans cf c p = true) ∧
    (∀ fuel cond, (insertByCoordinates cf fuel t p cond).2 ≠ InsStatus.panicked) := by
  constructor
  · intro hleaf
    rw [divide_of_leaf t hleaf]
    have hgeom : childrenGeomOK (t.setChildren (divideChildren t.coordinates t.span t.level)) := by
      unfold childrenGeomOK
      simp
    have hsp' : spans cf (t.setChildren (divideChildren t.coordinates t.span t.level)) p
        = true := by
      rw [spans_congr cf (t.setChildren (divideChildren t.coordinates t.span t.level)) t p
        (by simp) (by simp)]
      exact hsp
    obtain ⟨k, c, hkc, hc⟩ := cover_child cf _ p hgeom hsp'
    rw [children_setChildren] at hkc
    exact ⟨k, c, by rw [children_setChildren]; exact hkc, hc⟩
  · intro fuel cond
    exact ((insert_wf_master cf cond fuel).1 t p
      (insertGo cf cond fuel t p).1 (insertGo cf cond fuel t p).2 hwf hsp rfl).1

/-- C9 witness: the zero-dimensional root leaf spans everything and
divides into one child that also does. -/
theorem C9_cover_no_panic_witness :
    WellFormed (fun _ => []) (mk [] [] 0 [] none : TpnTree (List Unit)) ∧
    spans (fun _ => []) (mk [] [] 0 [] none : TpnTree (List Unit)) () = true ∧
    ((mk [] [] 0 [] none : TpnTree (List Unit)).children = [] →
      ∃ (k : Nat) (c : TpnTree (List Unit)),
        (mk [] [] 0 [] none : TpnTree (List Unit)).divide.1.children[k]? = some c ∧
        spans (fun _ => []) c () = true) ∧
    (∀ fuel cond,
      (insertByCoordinates (fun _ => []) fuel (mk [] [] 0 [] none) () cond).2 ≠
        InsStatus.panicked) := by
  have hwf : WellFormed (fun _ => []) (mk [] [] 0 [] none : TpnTree (List Unit)) :=
    WellFormed.intro _ rfl (Or.inl rfl) (by simp [bagOf]) (by simp)
  exact ⟨hwf, rfl, C9_cover_no_panic (fun _ => []) (mk [] [] 0 [] none) () hwf rfl⟩

/-- C10: the `DoesNotSpan` check fires only at the root: on a node of
level at least one, neither insertion nor search ever reports
`DoesNotSpan`, and an insertion on such a leaf whose division condition
is false simply appends the data to the payload bag, spanned or not. -/
theorem C10_non_root_no_dns (cf : T → List ℚ) (t : TpnTree (List T)) (p : T)
    (cond : TpnTree (List T) → Bool) (fuel : Nat) (hlvl : 1 ≤ t.level) :
    (insertByCoordinates cf fuel t p cond).2 ≠ InsStatus.err TpnTreeError.DoesNotSpan ∧
    findByCoordinates cf t p ≠ Except.error TpnTreeError.DoesNotSpan ∧
    (t.children = [] → cond t = false →
      insertByCoordinates cf (fuel + 1) t p cond =
        (t.setData (some (t.data.getD [] ++ [p])), InsStatus.ok)) := by
  have hroot : t.isRoot = false := by
    simp only [isRoot, beq_eq_false_iff_ne]
    omega
  refine ⟨?_, ?_, ?_⟩
  · exact (insert_no_dns_master cf cond fuel).1 t p (Or.inl hroot)
  · exact find_ne_dns cf t p (Or.inl hroot)
  · intro hleaf hcond
    exact insertGo_succ_push cf cond fuel t p (Or.inl hroot) hleaf hcond

/-- C10 witness: a level-one leaf that does not span the data still
accepts it without `DoesNotSpan`. -/
theorem C10_non_root_no_dns_witness :
    1 ≤ (mk [0] [1] 1 [] none : TpnTree (List (List ℚ))).level ∧
    ((insertByCoordinates id 1 (mk [0] [1] 1 [] none) [5] (fun _ => false)).2 ≠
      InsStatus.err TpnTreeError.DoesNotSpan ∧
    findByCoordinates id (mk [0] [1] 1 [] none) [5] ≠
      Except.error TpnTreeError.DoesNotSpan ∧
    ((mk [0] [1] 1 [] none : TpnTree (List (List ℚ))).children = [] →
      (fun _ : TpnTree (List (List ℚ)) => false) (mk [0] [1] 1 [] none) = false →
      insertByCoordinates id (1 + 1) (mk [0] [1] 1 [] none) [5] (fun _ => false) =
        ((mk [0] [1] 1 [] none : TpnTree (List (List ℚ))).setData
          (some ((mk [0] [1] 1 [] none :
            TpnTree (List (List ℚ))).data.getD [] ++ [[5]])), InsStatus.ok))) :=
  ⟨by simp, C10_non_root_no_dns id (mk [0] [1] 1 [] none) [5] (fun _ => false) 1 (by simp)⟩

/-- C7: the runtime-dimension variant's constructor succeeds exactly when
the coordinate and span lengths agree (asserting otherwise), and its
`divide` runs the identical counter-based enumeration: on equal inputs it
produces the same number of children, in the same order, with identical
coordinates, spans and levels as the fixed-dimension variant. -/
theorem C7_dynamic_refinement (c s : List ℚ) (l : Nat) :
    ((Dynamic.DynTree.new c s l : Option (Dynamic.DynTree T)).isSome = true ↔
      c.length = s.length) ∧
    (∀ dt : Dynamic.DynTree T, Dynamic.DynTree.new c s l = some dt →
      dt.coordinates = c ∧ dt.span = s ∧ dt.level = l ∧ dt.children = []) ∧
    (Dynamic.DynTree.mk c s l [] none : Dynamic.DynTree T).divide.2 = true ∧
    (Dynamic.DynTree.mk c s l [] none : Dynamic.DynTree T).divide.1.children.length =
      2 ^ c.length ∧
    (Dynamic.DynTree.mk c s l [] none : Dynamic.DynTree T).divide.1.children.map
        (fun x => (x.coordinates, x.span, x.level)) =
      (mk c s l [] none : TpnTree T).divide.1.children.map
        (fun x => (x.coordinates, x.span, x.level)) := by
  refine ⟨?_, ?_, rfl, ?_, ?_⟩
  · rw [Dynamic.DynTree.new]
    split_ifs with h <;> simp [h]
  · intro dt hdt
    rw [Dynamic.DynTree.new] at hdt
    by_cases h : c.length = s.length
    · rw [if_pos h] at hdt
      cases Option.some.inj hdt
      exact ⟨rfl, rfl, rfl, rfl⟩
    · rw [if_neg h] at hdt
      exact absurd hdt (by simp)
  · simp [Dynamic.DynTree.divide, Dynamic.DynTree.divideChildren]
  · simp only [Dynamic.DynTree.divide, Dynamic.DynTree.divideChildren, divide,
      divideChildren, List.isEmpty_nil, if_true, children_mk, children_setChildren,
      Dynamic.DynTree.dyn_children_mk, Dynamic.DynTree.dyn_children_setChildren, List.map_map]
    rfl

/-- C7 witness at concrete inputs, including a mismatched pair for the
assertion side. -/
theorem C7_dynamic_refinement_witness :
    (((Dynamic.DynTree.new [0] [1] 0 : Option (Dynamic.DynTree Unit)).isSome = true ↔
      ([0] : List ℚ).length = ([1] : List ℚ).length) ∧
    (∀ dt : Dynamic.DynTree Unit, Dynamic.DynTree.new [0] [1] 0 = some dt →
      dt.coordinates = [0] ∧ dt.span = [1] ∧ dt.level = 0 ∧ dt.children = []) ∧
    (Dynamic.DynTree.mk [0] [1] 0 [] none : Dynamic.DynTree Unit).divide.2 = true ∧
    (Dynamic.DynTree.mk [0] [1] 0 [] none :
      Dynamic.DynTree Unit).divide.1.children.length = 2 ^ ([0] : List ℚ).length ∧
    (Dynamic.DynTree.mk [0] [1] 0 [] none : Dynamic.DynTree Unit).divide.1.children.map
        (fun x => (x.coordinates, x.span, x.level)) =
      (mk [0] [1] 0 [] none : TpnTree Unit).divide.1.children.map
        (fun x => (x.coordinates, x.span, x.level))) ∧
    (Dynamic.DynTree.new [0, 0] [1] 0 : Option (Dynamic.DynTree Unit)) = none :=
  ⟨C7_dynamic_refinement [0] [1] 0, by rw [Dynamic.DynTree.new]; norm_num⟩

/-- C8: on the single-branch regression fixture (payload 1.0 at the
2-dimensional root, the root divided, payload 2.0 on the
last-enumerated child, that child divided, payload 3.0 on its
last-enumerated child), the depth-first iterator yields the payloads
1.0, 2.0, 3.0 as its first three nodes — the stack order visits the
most-recently-enumerated child first — and the breadth-first iterator
yields the same payload sequence in level order; both traversals visit
all 9 nodes. -/
theorem C8_traversal_fixture :
    ((iterDepthFirst 16 fixtureTree).map data).take 3 = [some 1, some 2, some 3] ∧
    (iterDepthFirst 16 fixtureTree).filterMap data = [1, 2, 3] ∧
    (iterDepthFirst 16 fixtureTree).length = 9 ∧
    (iterBreadthFirst 16 fixtureTree).filterMap data = [1, 2, 3] ∧
    (iterBreadthFirst 16 fixtureTree).length = 9 :=
  ⟨rfl, rfl, rfl, rfl, rfl⟩

end TpnTree

end Tpn
